import Mathlib

/-!
Verification of the CGF archive tool (ExCGF.py).

The archive file is modelled as a list of byte values (`List Nat`).  Python
file reads (`file.read`, `file.seek`, `file.tell`) become `List.drop` /
`List.take` / `List.length`; `struct.unpack` of a little-endian u32 becomes
`unpackU32`, which fails (like `struct.error`) unless it receives exactly
four bytes.  Machine integers are `Nat`/`Int` with explicit arithmetic:
Python's `x & ~0xC0000000` on a non-negative integer clears exactly bits
30 and 31, which `maskC` reproduces; `x >> 30` is `x / 2 ^ 30`.

The opener `CgfOpener.try_open` is embedded as `ExCGF.try_open`.  It has
three observable outcomes, modelled by `TryOpenResult`:
the directory (Python: an `ArcFile`; its pass-through `filename` string
carries no information and is dropped, keeping the entry list), the
format-mismatch result (Python: `return None`) and a raised exception
(Python: `struct.error` from a short `unpack`, or `UnicodeDecodeError`
from `bytes.decode('utf-8')`).
-/

namespace ExCGF

/-- Base record class `Entry` of the source (name, type, offset, size).
Names are kept as lists of Unicode code points (`str` in the source);
`size` is an `Int` because the source computes it by subtraction of
unbounded Python integers and never checks the sign. -/
structure Entry where
  name : List Nat
  type : String
  offset : Nat
  size : Int
deriving DecidableEq, Repr

/-- A directory entry: either a plain `Entry` (the spec's kind Generic,
produced with the flags dropped) or a `CgfEntry` subclass object carrying
`flags` (the spec's kind Image). -/
inductive DirEntry where
  | plain (e : Entry)
  | cgf (e : Entry) (flags : Nat)
deriving DecidableEq, Repr

/-- The `Entry` data carried by either variant. -/
def DirEntry.entry : DirEntry → Entry
  | .plain e => e
  | .cgf e _ => e

/-- Outcome of `CgfOpener.try_open`: a directory, the `None`
(format-mismatch) result, or a raised exception. -/
inductive TryOpenResult where
  | ok (entries : List DirEntry)
  | mismatch
  | error
deriving DecidableEq, Repr

/-- `struct.unpack('<I', bs)`: little-endian u32, defined exactly on
four-byte buffers (otherwise `struct.error`, modelled as `none`). -/
def unpackU32 : List Nat → Option Nat
  | [a, b, c, d] => some (a + 256 * b + 65536 * c + 16777216 * d)
  | _ => none

/-- Python `x & ~0xC0000000` for a non-negative `x`: clears bits 30 and 31,
keeping the low 30 bits and every bit from 32 up. -/
def maskC (x : Nat) : Nat := x % 2 ^ 30 + x / 2 ^ 32 * 2 ^ 32

/-- `CgfOpener.is_sane_count` (source line 78). -/
def is_sane_count (count : Nat) : Bool := decide (0 < count ∧ count < 100000)

/-- The forbidden characters of `CgfOpener.is_valid_entry_name`
(code points of back-slash, slash, colon, star, question mark,
double quote, less-than, greater-than, pipe). -/
def forbiddenChars : List Nat := [92, 47, 58, 42, 63, 34, 60, 62, 124]

/-- `CgfOpener.is_valid_entry_name` (source line 82): non-empty and
containing none of the forbidden path/wildcard characters. -/
def is_valid_entry_name (s : List Nat) : Bool :=
  (!s.isEmpty) && forbiddenChars.all (fun c => !(s.contains c))

/-- Python `str.rstrip('\0')`: remove trailing NUL code points. -/
def rstripNull (s : List Nat) : List Nat :=
  (s.reverse.dropWhile (fun c => c == 0)).reverse

/-- ASCII fragment of Python `str.lower`, applied code point by code
point.  The only use in the source is the case-insensitive `.iaf` suffix
test, whose four target characters are ASCII, so the ASCII mapping is the
relevant fragment of the Unicode mapping. -/
def asciiLower (c : Nat) : Nat := if 65 ≤ c ∧ c ≤ 90 then c + 32 else c

/-- `name.lower().endswith('.iaf')` (source line 67): the code points of
".iaf" are 46, 105, 97, 102. -/
def endsIaf (s : List Nat) : Bool :=
  [46, 105, 97, 102].isSuffixOf (s.map asciiLower)

/-- One step per byte of a strict UTF-8 decoder: `pending` is the number
of continuation bytes still expected for the current sequence, `acc` the
partial code point, and `lo`/`hi` bound the next continuation byte (the
tightened bounds after a leading 0xE0, 0xED, 0xF0 or 0xF4 rule out
overlong encodings, surrogates and code points above U+10FFFF, exactly
the sequences Python's strict decoder rejects). -/
def utf8Run : List Nat → Nat → Nat → Nat → Nat → Option (List Nat)
  | [], pending, _, _, _ => if pending = 0 then some [] else none
  | b :: t, pending, acc, lo, hi =>
    if pending = 0 then
      if b < 0x80 then Option.map (fun r => b :: r) (utf8Run t 0 0 0 0)
      else if b < 0xC2 then none
      else if b < 0xE0 then utf8Run t 1 (b - 0xC0) 0x80 0xC0
      else if b = 0xE0 then utf8Run t 2 0 0xA0 0xC0
      else if b = 0xED then utf8Run t 2 0xD 0x80 0xA0
      else if b < 0xF0 then utf8Run t 2 (b - 0xE0) 0x80 0xC0
      else if b = 0xF0 then utf8Run t 3 0 0x90 0xC0
      else if b = 0xF4 then utf8Run t 3 4 0x80 0x90
      else if b < 0xF5 then utf8Run t 3 (b - 0xF0) 0x80 0xC0
      else none
    else
      if lo ≤ b ∧ b < hi then
        if pending = 1 then
          Option.map (fun r => (acc * 0x40 + (b - 0x80)) :: r) (utf8Run t 0 0 0 0)
        else utf8Run t (pending - 1) (acc * 0x40 + (b - 0x80)) 0x80 0xC0
      else none

/-- Strict UTF-8 decoding of a byte list into code points, as performed by
Python `bytes.decode('utf-8')`: rejects stray continuation bytes, overlong
encodings, surrogates, code points above U+10FFFF and truncated sequences
(returning `none` where Python raises `UnicodeDecodeError`). -/
def utf8Decode (l : List Nat) : Option (List Nat) := utf8Run l 0 0 0 0

/-- The classification step of the loop body (source lines 67-70): a plain
`Entry` when `flags == 1` or the name ends in ".iaf" case-insensitively,
otherwise a `CgfEntry` carrying the flags.  The `type` string is always
"image" in the source. -/
def classify (name : List Nat) (offset : Nat) (size : Int) (flags : Nat) : DirEntry :=
  if flags = 1 ∨ endsIaf name then DirEntry.plain ⟨name, "image", offset, size⟩
  else DirEntry.cgf ⟨name, "image", offset, size⟩ flags

/-- Layout detection (source lines 37-44): record size is 0x14 if
`4 + count*0x14` equals the probe read at 0x14 with its top two bits
masked off, else 0x20 against the probe read at 0x20, else no layout
fits.  On success returns the chosen record size together with the
matching probe value, the initial `next_offset` of the loop. -/
def detectLayout (count offset1 offset2 : Nat) : Option (Nat × Nat) :=
  if 4 + count * 0x14 = maskC offset1 then some (0x14, offset1)
  else if 4 + count * 0x20 = maskC offset2 then some (0x20, offset2)
  else none

/-- The decoding loop of `try_open` (source lines 51-72), one call per
remaining record.  `rem` is the number of records still to decode, `i`
the index of the current record, `next_offset` the carried packed field.
For the current record: decode and validate its name from the buffered
index block `idx`, split `next_offset` into flags (top two bits) and
offset, then read the following record's trailing packed u32 from `idx`
(or take the archive length `f.length` for the last record), derive the
size by masked subtraction and classify.  A failed UTF-8 decode or a
short `unpack` buffer is a raised exception (`.error`); an invalid name
returns `None` (`.mismatch`). -/
def openLoop (f idx : List Nat) (es : Nat) : Nat → Nat → Nat → TryOpenResult
  | 0, _, _ => .ok []
  | rem + 1, i, next_offset =>
    match utf8Decode ((idx.drop (i * es)).take (es - 4)) with
    | none => .error
    | some decoded =>
      let name := rstripNull decoded
      if is_valid_entry_name name then
        let flags := next_offset / 2 ^ 30
        let offset := maskC next_offset
        match (if rem = 0 then some f.length
               else unpackU32 ((idx.drop ((i + 1) * es + es - 4)).take 4)) with
        | none => .error
        | some next2 =>
          let size : Int := (maskC next2 : Int) - (offset : Int)
          match openLoop f idx es rem (i + 1) next2 with
          | .ok rest => .ok (classify name offset size flags :: rest)
          | r => r
      else .mismatch

/-- `CgfOpener.try_open` (source lines 26-74) on the archive bytes `f`:
read the entry count at offset 0, check sanity, read the two probe u32
values at 0x14 and 0x20 (both reads happen before any comparison, exactly
as in the source), detect the layout, buffer the index block starting at
offset 4 and run the decoding loop. -/
def try_open (f : List Nat) : TryOpenResult :=
  match unpackU32 (f.take 4) with
  | none => .error
  | some count =>
    if is_sane_count count then
      match unpackU32 ((f.drop 0x14).take 4), unpackU32 ((f.drop 0x20).take 4) with
      | some offset1, some offset2 =>
        match detectLayout count offset1 offset2 with
        | some (entry_size, next_offset) =>
          openLoop f ((f.drop 4).take (entry_size * count)) entry_size count 0 next_offset
        | none => .mismatch
      | _, _ => .error
    else .mismatch

/-- `arc.read(n)` after `arc.seek(pos)`: Python `read` with a negative
argument reads to end of file. -/
def fileReadAt (f : List Nat) (pos : Nat) (n : Int) : List Nat :=
  if n < 0 then f.drop pos else (f.drop pos).take n.toNat

/-- The byte content `extract_file` (source lines 84-99) writes for an
entry with the given offset and size: four zero bytes, then the entry
content with its first three bytes replaced by zero bytes.  The function
never looks at the entry's kind or flags. -/
def extract_file (f : List Nat) (offset : Nat) (size : Int) : List Nat :=
  let content := fileReadAt f offset size
  [0, 0, 0, 0] ++ ([0, 0, 0] ++ content.drop 3)

/-- Sum of the size fields of a directory. -/
def sumSizes (l : List DirEntry) : Int := (l.map (fun d => d.entry.size)).sum

/-! ### Helper lemmas: lists, mask arithmetic, UTF-8, unpacking -/

/-- Taking within the first summand of an append. -/
theorem take_append_of_le {α : Type} (l₁ l₂ : List α) (n : Nat) (h : n ≤ l₁.length) :
    (l₁ ++ l₂).take n = l₁.take n := by
  rw [List.take_append_eq_append_take, Nat.sub_eq_zero_of_le h, List.take_zero, List.append_nil]

/-- Dropping within the first summand of an append. -/
theorem drop_append_of_le {α : Type} (l₁ l₂ : List α) (n : Nat) (h : n ≤ l₁.length) :
    (l₁ ++ l₂).drop n = l₁.drop n ++ l₂ := by
  rw [List.drop_append_eq_append_drop, Nat.sub_eq_zero_of_le h, List.drop_zero]

/-- A slice of a slice: the inner take disappears when it is long enough. -/
theorem take_drop_take {α : Type} (l : List α) (a n b m : Nat) (h : b + m ≤ n) :
    (((l.drop a).take n).drop b).take m = (l.drop (a + b)).take m := by
  rw [List.drop_take, List.take_take, List.drop_drop]
  rw [Nat.min_eq_left (by omega : m ≤ n - b)]

theorem maskC_of_lt {x : Nat} (h : x < 2 ^ 30) : maskC x = x := by
  unfold maskC; omega

theorem maskC_le (x : Nat) : maskC x ≤ x := by
  unfold maskC; omega

theorem maskC_packed {fl o : Nat} (hfl : fl < 4) (ho : o < 2 ^ 30) :
    maskC (fl * 2 ^ 30 + o) = o := by
  unfold maskC; omega

theorem flags_packed {fl o : Nat} (hfl : fl < 4) (ho : o < 2 ^ 30) :
    (fl * 2 ^ 30 + o) / 2 ^ 30 = fl := by
  omega

theorem unpackU32_isSome {bs : List Nat} (h : bs.length = 4) :
    (unpackU32 bs).isSome = true := by
  match bs, h with
  | [a, b, c, d], _ => rfl

theorem unpackU32_eq_none {bs : List Nat} (h : ¬ bs.length = 4) :
    unpackU32 bs = none := by
  match bs with
  | [] => rfl
  | [a] => rfl
  | [a, b] => rfl
  | [a, b, c] => rfl
  | [a, b, c, d] => exact absurd rfl h
  | a :: b :: c :: d :: e :: t => rfl

/-- Little-endian serialisation of a u32 value. -/
def le4 (n : Nat) : List Nat :=
  [n % 256, n / 256 % 256, n / 65536 % 256, n / 16777216 % 256]

theorem length_le4 (n : Nat) : (le4 n).length = 4 := rfl

theorem unpackU32_le4 (n : Nat) : unpackU32 (le4 n) = some (n % 2 ^ 32) := by
  simp only [le4, unpackU32, Option.some.injEq]
  omega

theorem unpackU32_le4_of_lt {n : Nat} (h : n < 2 ^ 32) : unpackU32 (le4 n) = some n := by
  rw [unpackU32_le4, Nat.mod_eq_of_lt h]

/-- One-step unfolding of `utf8Decode` on an ASCII head byte. -/
theorem utf8Decode_cons_lt {b : Nat} (t : List Nat) (hb : b < 0x80) :
    utf8Decode (b :: t) = Option.map (fun r => b :: r) (utf8Decode t) := by
  unfold utf8Decode
  rw [utf8Run.eq_def]
  simp [hb]

/-- Strict UTF-8 decoding is the identity on pure ASCII byte lists. -/
theorem utf8Decode_ascii : ∀ (l : List Nat), (∀ b ∈ l, b < 0x80) → utf8Decode l = some l := by
  intro l
  induction l with
  | nil => intro _; rfl
  | cons b t ih =>
    intro h
    have hb : b < 0x80 := h b (List.mem_cons_self b t)
    have ht := ih (fun x hx => h x (List.mem_cons_of_mem b hx))
    rw [utf8Decode_cons_lt t hb, ht]
    rfl

theorem dropWhile_replicate_append (p : Nat → Bool) (a : Nat) (hp : p a = true) :
    ∀ (k : Nat) (l : List Nat),
      (List.replicate k a ++ l).dropWhile p = l.dropWhile p := by
  intro k
  induction k with
  | zero => intro l; rfl
  | succ n ih =>
    intro l
    rw [List.replicate_succ, List.cons_append, List.dropWhile_cons_of_pos hp, ih]

theorem dropWhile_eq_self_of_head (p : Nat → Bool) :
    ∀ (l : List Nat), (∀ b, l.head? = some b → p b = false) → l.dropWhile p = l := by
  intro l h
  cases l with
  | nil => rfl
  | cons b t =>
    have hb : p b = false := h b rfl
    rw [List.dropWhile_cons_of_neg (by rw [hb]; exact Bool.false_ne_true)]

/-- Stripping trailing NULs from a NUL-free name padded with NULs returns
the name. -/
theorem rstripNull_pad (nm : List Nat) (k : Nat) (h : ∀ b ∈ nm, 1 ≤ b) :
    rstripNull (nm ++ List.replicate k 0) = nm := by
  unfold rstripNull
  rw [List.reverse_append, List.reverse_replicate,
    dropWhile_replicate_append _ 0 rfl,
    dropWhile_eq_self_of_head _ _ ?_, List.reverse_reverse]
  intro b hb
  have hmem : b ∈ nm.reverse := List.mem_of_mem_head? hb
  have h1 := h b (List.mem_reverse.mp hmem)
  show (b == 0) = false
  exact beq_eq_false_iff_ne.mpr (by omega)

/-! ### Unfolding lemmas for the decoding loop -/

/-- The loop on a successful step: name decodes and is valid, and the
following packed field (or the file length) is available. -/
theorem openLoop_succ_eq {f idx : List Nat} {es rem i next : Nat} {decoded : List Nat}
    {next2 : Nat}
    (hdec : utf8Decode ((idx.drop (i * es)).take (es - 4)) = some decoded)
    (hval : is_valid_entry_name (rstripNull decoded) = true)
    (hnext : (if rem = 0 then some f.length
              else unpackU32 ((idx.drop ((i + 1) * es + es - 4)).take 4)) = some next2) :
    openLoop f idx es (rem + 1) i next =
      match openLoop f idx es rem (i + 1) next2 with
      | .ok rest =>
          .ok (classify (rstripNull decoded) (maskC next)
            ((maskC next2 : Int) - (maskC next : Int)) (next / 2 ^ 30) :: rest)
      | r => r := by
  rw [openLoop]
  rw [hdec]
  simp only [hval, if_true, hnext]

/-- The loop errors when the name bytes are not valid UTF-8. -/
theorem openLoop_succ_decerr {f idx : List Nat} {es rem i next : Nat}
    (hdec : utf8Decode ((idx.drop (i * es)).take (es - 4)) = none) :
    openLoop f idx es (rem + 1) i next = .error := by
  rw [openLoop, hdec]

/-- The loop returns the mismatch result when the decoded, stripped name
is invalid. -/
theorem openLoop_succ_badname {f idx : List Nat} {es rem i next : Nat} {decoded : List Nat}
    (hdec : utf8Decode ((idx.drop (i * es)).take (es - 4)) = some decoded)
    (hval : is_valid_entry_name (rstripNull decoded) = false) :
    openLoop f idx es (rem + 1) i next = .mismatch := by
  rw [openLoop, hdec]
  simp only [hval, Bool.false_eq_true, if_false]

/-- The loop errors when the following packed field cannot be unpacked. -/
theorem openLoop_succ_nexterr {f idx : List Nat} {es rem i next : Nat} {decoded : List Nat}
    (hdec : utf8Decode ((idx.drop (i * es)).take (es - 4)) = some decoded)
    (hval : is_valid_entry_name (rstripNull decoded) = true)
    (hrem : ¬ rem = 0)
    (hnext : unpackU32 ((idx.drop ((i + 1) * es + es - 4)).take 4) = none) :
    openLoop f idx es (rem + 1) i next = .error := by
  rw [openLoop, hdec]
  simp only [hval, if_true, if_neg hrem, hnext]

/-- Inversion: a successful run of the loop determines each piece. -/
theorem openLoop_ok_succ {f idx : List Nat} {es rem i next : Nat} {l : List DirEntry}
    (h : openLoop f idx es (rem + 1) i next = .ok l) :
    ∃ decoded next2 rest,
      utf8Decode ((idx.drop (i * es)).take (es - 4)) = some decoded ∧
      is_valid_entry_name (rstripNull decoded) = true ∧
      (if rem = 0 then some f.length
       else unpackU32 ((idx.drop ((i + 1) * es + es - 4)).take 4)) = some next2 ∧
      openLoop f idx es rem (i + 1) next2 = .ok rest ∧
      l = classify (rstripNull decoded) (maskC next)
            ((maskC next2 : Int) - (maskC next : Int)) (next / 2 ^ 30) :: rest := by
  cases hdec : utf8Decode ((idx.drop (i * es)).take (es - 4)) with
  | none => rw [openLoop_succ_decerr hdec] at h; exact absurd h (by intro hx; cases hx)
  | some decoded =>
    cases hval : is_valid_entry_name (rstripNull decoded) with
    | false => rw [openLoop_succ_badname hdec hval] at h; exact absurd h (by intro hx; cases hx)
    | true =>
      cases hnext : (if rem = 0 then some f.length
                     else unpackU32 ((idx.drop ((i + 1) * es + es - 4)).take 4)) with
      | none =>
        have hrem : ¬ rem = 0 := by
          intro h0
          rw [h0] at hnext
          exact absurd hnext (by simp)
        rw [if_neg hrem] at hnext
        rw [openLoop_succ_nexterr hdec hval hrem hnext] at h
        exact absurd h (by intro hx; cases hx)
      | some next2 =>
        rw [openLoop_succ_eq hdec hval hnext] at h
        cases hrec : openLoop f idx es rem (i + 1) next2 with
        | ok rest =>
          rw [hrec] at h
          refine ⟨decoded, next2, rest, rfl, hval, rfl, hrec, ?_⟩
          cases h
          rfl
        | mismatch => rw [hrec] at h; exact absurd h (by intro hx; cases hx)
        | error => rw [hrec] at h; exact absurd h (by intro hx; cases hx)

/-- A successful run decodes exactly the number of requested records. -/
theorem openLoop_ok_length {f idx : List Nat} {es : Nat} :
    ∀ {rem i next : Nat} {l : List DirEntry},
      openLoop f idx es rem i next = .ok l → l.length = rem := by
  intro rem
  induction rem with
  | zero =>
    intro i next l h
    cases h
    rfl
  | succ n ih =>
    intro i next l h
    obtain ⟨decoded, next2, rest, _, _, _, hrec, hl⟩ := openLoop_ok_succ h
    rw [hl, List.length_cons, ih hrec]

/-- Every entry produced by the loop is a `classify` application. -/
theorem openLoop_ok_classify {f idx : List Nat} {es : Nat} :
    ∀ {rem i next : Nat} {l : List DirEntry},
      openLoop f idx es rem i next = .ok l →
      ∀ d ∈ l, ∃ n o s fl, d = classify n o s fl := by
  intro rem
  induction rem with
  | zero =>
    intro i next l h
    cases h
    intro d hd
    exact absurd hd (List.not_mem_nil d)
  | succ n ih =>
    intro i next l h
    obtain ⟨decoded, next2, rest, _, _, _, hrec, hl⟩ := openLoop_ok_succ h
    subst hl
    intro d hd
    rcases List.mem_cons.mp hd with hd0 | hdr
    · exact ⟨_, _, _, _, hd0⟩
    · exact ih hrec d hdr

/-- The fields stored by `classify` are its arguments, whichever variant
it produces. -/
theorem classify_entry_fields (n : List Nat) (o : Nat) (s : Int) (fl : Nat) :
    (classify n o s fl).entry.offset = o ∧ (classify n o s fl).entry.size = s ∧
    (classify n o s fl).entry.name = n := by
  unfold classify
  by_cases hc : fl = 1 ∨ endsIaf n
  · rw [if_pos hc]; exact ⟨rfl, rfl, rfl⟩
  · rw [if_neg hc]; exact ⟨rfl, rfl, rfl⟩

theorem sumSizes_nil : sumSizes [] = 0 := rfl

theorem sumSizes_cons (d : DirEntry) (l : List DirEntry) :
    sumSizes (d :: l) = d.entry.size + sumSizes l := by
  unfold sumSizes
  rw [List.map_cons, List.sum_cons]

/-- Telescoping: the sizes of the entries decoded by a non-empty run sum
to the masked archive length minus the masked carried offset. -/
theorem openLoop_sum {f idx : List Nat} {es : Nat} :
    ∀ {rem i next : Nat} {l : List DirEntry},
      openLoop f idx es (rem + 1) i next = .ok l →
      sumSizes l = (maskC f.length : Int) - (maskC next : Int) := by
  intro rem
  induction rem with
  | zero =>
    intro i next l h
    obtain ⟨decoded, next2, rest, _, _, hnext, hrec, hl⟩ := openLoop_ok_succ h
    cases hrec
    rw [if_pos rfl, Option.some.injEq] at hnext
    subst hl
    subst hnext
    rw [sumSizes_cons, sumSizes_nil,
      (classify_entry_fields (rstripNull decoded) (maskC next)
        ((maskC f.length : Int) - (maskC next : Int)) (next / 2 ^ 30)).2.1]
    ring
  | succ n ih =>
    intro i next l h
    obtain ⟨decoded, next2, rest, _, _, hnext, hrec, hl⟩ := openLoop_ok_succ h
    rw [if_neg (Nat.succ_ne_zero n)] at hnext
    subst hl
    rw [sumSizes_cons, ih hrec,
      (classify_entry_fields (rstripNull decoded) (maskC next)
        ((maskC next2 : Int) - (maskC next : Int)) (next / 2 ^ 30)).2.1]
    ring

/-- Adjacent entries describe adjacent byte ranges: each entry after the
first starts where the previous one ends. -/
def Contiguous : List DirEntry → Prop
  | [] => True
  | [_] => True
  | d :: d2 :: rest =>
    ((d2.entry.offset : Int) = (d.entry.offset : Int) + d.entry.size) ∧
      Contiguous (d2 :: rest)

/-- Index form of `Contiguous`. -/
theorem Contiguous.get_succ :
    ∀ {l : List DirEntry}, Contiguous l →
      ∀ k (hk : k + 1 < l.length),
        ((l.get ⟨k + 1, hk⟩).entry.offset : Int) =
          ((l.get ⟨k, Nat.lt_of_succ_lt hk⟩).entry.offset : Int) +
            (l.get ⟨k, Nat.lt_of_succ_lt hk⟩).entry.size := by
  intro l
  induction l with
  | nil =>
    intro _ k hk
    exact absurd hk (by simp)
  | cons d tail ih =>
    intro hc k hk
    cases tail with
    | nil =>
      simp only [List.length_cons, List.length_nil] at hk
      omega
    | cons d2 rest =>
      obtain ⟨hstep, htail⟩ := hc
      cases k with
      | zero => exact hstep
      | succ m =>
        have hk2 : m + 1 < (d2 :: rest).length := by
          simp only [List.length_cons] at hk ⊢
          omega
        exact ih htail m hk2

/-- Offset chain of a successful non-empty run: the first entry's offset
is the masked carried field, consecutive entries are contiguous, and the
last entry ends at the masked archive length. -/
theorem openLoop_chain {f idx : List Nat} {es : Nat} :
    ∀ {rem i next : Nat} {l : List DirEntry},
      openLoop f idx es (rem + 1) i next = .ok l →
      l.head?.map (fun d => d.entry.offset) = some (maskC next) ∧
      Contiguous l ∧
      l.getLast?.map (fun d => (d.entry.offset : Int) + d.entry.size) =
        some (maskC f.length : Int) := by
  intro rem
  induction rem with
  | zero =>
    intro i next l h
    obtain ⟨decoded, next2, rest, _, _, hnext, hrec, hl⟩ := openLoop_ok_succ h
    cases hrec
    rw [if_pos rfl, Option.some.injEq] at hnext
    subst hl
    subst hnext
    obtain ⟨ho, hs, _⟩ := classify_entry_fields (rstripNull decoded) (maskC next)
      ((maskC f.length : Int) - (maskC next : Int)) (next / 2 ^ 30)
    refine ⟨?_, trivial, ?_⟩
    · rw [List.head?_cons]
      simp only [Option.map]
      rw [ho]
    · rw [List.getLast?_singleton]
      simp only [Option.map]
      rw [ho, hs, Option.some.injEq]
      ring
  | succ n ih =>
    intro i next l h
    obtain ⟨decoded, next2, rest, _, _, hnext, hrec, hl⟩ := openLoop_ok_succ h
    rw [if_neg (Nat.succ_ne_zero n)] at hnext
    subst hl
    obtain ⟨ihhead, ihcontig, ihlast⟩ := ih hrec
    have hlen : rest.length = n + 1 := openLoop_ok_length hrec
    obtain ⟨ho, hs, _⟩ := classify_entry_fields (rstripNull decoded) (maskC next)
      ((maskC next2 : Int) - (maskC next : Int)) (next / 2 ^ 30)
    cases rest with
    | nil => rw [List.length_nil] at hlen; exact absurd hlen (by omega)
    | cons r0 rtail =>
      rw [List.head?_cons] at ihhead
      simp only [Option.map] at ihhead
      rw [Option.some.injEq] at ihhead
      refine ⟨?_, ⟨?_, ihcontig⟩, ?_⟩
      · rw [List.head?_cons]
        simp only [Option.map]
        rw [ho]
      · rw [ihhead, ho, hs]
        ring
      · rw [List.getLast?_cons_cons]
        exact ihlast

/-- The trailing packed u32 of record `j` as the loop reads it from the
buffered index block: four bytes at block offset `j*es + es - 4`. -/
def idxTrail (idx : List Nat) (es j : Nat) : Option Nat :=
  unpackU32 ((idx.drop (j * es + es - 4)).take 4)

/-- The decoded, NUL-stripped name of record `j` as the loop reads it
from the buffered index block: `es - 4` bytes at block offset `j*es`. -/
def idxName (idx : List Nat) (es j : Nat) : Option (List Nat) :=
  Option.map rstripNull (utf8Decode ((idx.drop (j * es)).take (es - 4)))

/-- A mismatch outcome of the loop is always caused by a record whose
name decoded but failed validation. -/
theorem openLoop_mismatch_elim {f idx : List Nat} {es : Nat} :
    ∀ {rem i next : Nat},
      openLoop f idx es rem i next = .mismatch →
      ∃ k, k < rem ∧ ∃ nm, idxName idx es (i + k) = some nm ∧
        is_valid_entry_name nm = false := by
  intro rem
  induction rem with
  | zero =>
    intro i next h
    exact absurd h (by intro hx; cases hx)
  | succ n ih =>
    intro i next h
    cases hdec : utf8Decode ((idx.drop (i * es)).take (es - 4)) with
    | none =>
      rw [openLoop_succ_decerr hdec] at h
      exact absurd h (by intro hx; cases hx)
    | some decoded =>
      cases hval : is_valid_entry_name (rstripNull decoded) with
      | false =>
        refine ⟨0, Nat.succ_pos n, rstripNull decoded, ?_, hval⟩
        unfold idxName
        rw [Nat.add_zero, hdec]
        rfl
      | true =>
        cases hnext : (if n = 0 then some f.length
                       else unpackU32 ((idx.drop ((i + 1) * es + es - 4)).take 4)) with
        | none =>
          have hrem : ¬ n = 0 := by
            intro h0
            rw [h0] at hnext
            exact absurd hnext (by simp)
          rw [if_neg hrem] at hnext
          rw [openLoop_succ_nexterr hdec hval hrem hnext] at h
          exact absurd h (by intro hx; cases hx)
        | some next2 =>
          rw [openLoop_succ_eq hdec hval hnext] at h
          cases hrec : openLoop f idx es n (i + 1) next2 with
          | ok rest => rw [hrec] at h; exact absurd h (by intro hx; cases hx)
          | error => rw [hrec] at h; exact absurd h (by intro hx; cases hx)
          | mismatch =>
            obtain ⟨k, hk, nm, hnm, hnv⟩ := ih hrec
            refine ⟨k + 1, by omega, nm, ?_, hnv⟩
            rw [show i + (k + 1) = i + 1 + k by omega]
            exact hnm

/-- If the records before position `d` decode to valid names and their
successor fields unpack, while record `d` decodes to an invalid name,
the loop returns the mismatch result. -/
theorem openLoop_badname_at {f idx : List Nat} {es : Nat} :
    ∀ {d rem i next : Nat},
      d < rem →
      (∀ k, k < d → ∃ nm, idxName idx es (i + k) = some nm ∧
        is_valid_entry_name nm = true) →
      (∀ k, k < d → (idxTrail idx es (i + k + 1)).isSome = true) →
      (∃ nm, idxName idx es (i + d) = some nm ∧ is_valid_entry_name nm = false) →
      openLoop f idx es rem i next = .mismatch := by
  intro d
  induction d with
  | zero =>
    intro rem i next hd _ _ hbad
    obtain ⟨nm, hnm, hnv⟩ := hbad
    unfold idxName at hnm
    rw [Nat.add_zero] at hnm
    cases hdec : utf8Decode ((idx.drop (i * es)).take (es - 4)) with
    | none => rw [hdec] at hnm; exact absurd hnm (by simp)
    | some decoded =>
      rw [hdec] at hnm
      simp only [Option.map] at hnm
      rw [Option.some.injEq] at hnm
      cases rem with
      | zero => exact absurd hd (by omega)
      | succ r => exact openLoop_succ_badname hdec (hnm ▸ hnv)
  | succ m ih =>
    intro rem i next hd hprev hptrail hbad
    cases rem with
    | zero => exact absurd hd (by omega)
    | succ r =>
      obtain ⟨nm0, hnm0, hval0⟩ := hprev 0 (Nat.succ_pos m)
      unfold idxName at hnm0
      rw [Nat.add_zero] at hnm0
      cases hdec : utf8Decode ((idx.drop (i * es)).take (es - 4)) with
      | none => rw [hdec] at hnm0; exact absurd hnm0 (by simp)
      | some decoded =>
        rw [hdec] at hnm0
        simp only [Option.map] at hnm0
        rw [Option.some.injEq] at hnm0
        have hval : is_valid_entry_name (rstripNull decoded) = true := hnm0 ▸ hval0
        have hr : ¬ r = 0 := by omega
        have htr := hptrail 0 (Nat.succ_pos m)
        rw [Nat.add_zero] at htr
        obtain ⟨v, hv⟩ := Option.isSome_iff_exists.mp htr
        unfold idxTrail at hv
        have hnext : (if r = 0 then some f.length
            else unpackU32 ((idx.drop ((i + 1) * es + es - 4)).take 4)) = some v := by
          rw [if_neg hr]
          exact hv
        rw [openLoop_succ_eq hdec hval hnext]
        have hrec : openLoop f idx es r (i + 1) v = .mismatch := by
          refine ih (by omega) ?_ ?_ ?_
          · intro k hk
            have := hprev (k + 1) (by omega)
            rw [show i + (k + 1) = i + 1 + k by omega] at this
            exact this
          · intro k hk
            have := hptrail (k + 1) (by omega)
            rw [show i + (k + 1) + 1 = i + 1 + k + 1 by omega] at this
            exact this
          · obtain ⟨nm, hnm, hnv⟩ := hbad
            rw [show i + (m + 1) = i + 1 + m by omega] at hnm
            exact ⟨nm, hnm, hnv⟩
        rw [hrec]

/-- The entry formula of a successful run: entry `k` is built by
`classify` from record `i+k`'s decoded name, the masked value of record
`i+k`'s own trailing packed field, the masked difference to the next
record's trailing field (the archive length for the final record), and
the field's top two bits. -/
theorem openLoop_entries {f idx : List Nat} {es : Nat} :
    ∀ {rem i next : Nat} {l : List DirEntry},
      openLoop f idx es rem i next = .ok l →
      idxTrail idx es i = some next →
      ∀ k (hk : k < l.length),
        (idxTrail idx es (i + k)).isSome = true ∧
        (idxName idx es (i + k)).isSome = true ∧
        l.get ⟨k, hk⟩ = classify
          ((idxName idx es (i + k)).getD [])
          (maskC ((idxTrail idx es (i + k)).getD 0))
          ((maskC (if k + 1 < rem then (idxTrail idx es (i + k + 1)).getD 0
              else f.length) : Int) -
            (maskC ((idxTrail idx es (i + k)).getD 0) : Int))
          ((idxTrail idx es (i + k)).getD 0 / 2 ^ 30) := by
  intro rem
  induction rem with
  | zero =>
    intro i next l h hnext0 k hk
    cases h
    exact absurd hk (by simp at hk)
  | succ n ih =>
    intro i next l h hnext0 k hk
    obtain ⟨decoded, next2, rest, hdec, hval, hnext, hrec, hl⟩ := openLoop_ok_succ h
    subst hl
    cases k with
    | zero =>
      rw [Nat.add_zero]
      refine ⟨by rw [hnext0]; rfl, ?_, ?_⟩
      · unfold idxName
        rw [hdec]
        rfl
      · have hname : (idxName idx es i).getD [] = rstripNull decoded := by
          unfold idxName
          rw [hdec]
          rfl
        have htf : (idxTrail idx es i).getD 0 = next := by rw [hnext0]; rfl
        have hget : (classify (rstripNull decoded) (maskC next)
            ((maskC next2 : Int) - (maskC next : Int)) (next / 2 ^ 30) :: rest).get ⟨0, hk⟩ =
            classify (rstripNull decoded) (maskC next)
              ((maskC next2 : Int) - (maskC next : Int)) (next / 2 ^ 30) := rfl
        rw [hget, hname, htf]
        by_cases h1 : 0 + 1 < n + 1
        · rw [if_pos h1]
          have hn : ¬ n = 0 := by omega
          rw [if_neg hn] at hnext
          have : (idxTrail idx es (i + 0 + 1)).getD 0 = next2 := by
            unfold idxTrail
            rw [Nat.add_zero, hnext]
            rfl
          rw [this]
        · rw [if_neg h1]
          have hn : n = 0 := by omega
          rw [hn, if_pos rfl, Option.some.injEq] at hnext
          rw [hnext]
    | succ m =>
      have hm : m < rest.length := by
        rw [List.length_cons] at hk
        omega
      have hnext2 : ¬ n = 0 := by
        have hlen := openLoop_ok_length hrec
        intro h0
        rw [h0] at hlen
        rw [hlen] at hm
        exact absurd hm (by omega)
      rw [if_neg hnext2] at hnext
      have htrail1 : idxTrail idx es (i + 1) = some next2 := hnext
      have := ih hrec htrail1 m hm
      rw [show i + 1 + m = i + (m + 1) by omega] at this
      obtain ⟨h1, h2, h3⟩ := this
      refine ⟨h1, h2, ?_⟩
      have hgs : (classify (rstripNull decoded) (maskC next)
          ((maskC next2 : Int) - (maskC next : Int)) (next / 2 ^ 30) :: rest).get ⟨m + 1, hk⟩ =
          rest.get ⟨m, hm⟩ := rfl
      rw [hgs, h3]
      rw [show i + (m + 1) + 1 = i + 1 + m + 1 by omega]
      by_cases hcmp : m + 1 < n
      · rw [if_pos hcmp, if_pos (by omega : m + 1 + 1 < n + 1)]
      · rw [if_neg hcmp, if_neg (by omega : ¬ m + 1 + 1 < n + 1)]

/-- Record `i`'s name field as located in the archive file itself:
`es - 4` bytes at file offset `4 + i*es`. -/
def nameSliceAt (f : List Nat) (es i : Nat) : List Nat :=
  (f.drop (4 + i * es)).take (es - 4)

/-- Record `i`'s trailing packed field as located in the archive file
itself: 4 bytes at file offset `4 + (i*es + es - 4)`. -/
def trailSliceAt (f : List Nat) (es i : Nat) : List Nat :=
  (f.drop (4 + (i * es + es - 4))).take 4

/-- Inside the buffered index block the name slice of a record of the
index equals the corresponding file slice. -/
theorem idxName_eq (f : List Nat) (es count i : Nat) (h4 : 4 ≤ es) (hi : i < count) :
    idxName ((f.drop 4).take (es * count)) es i =
      Option.map rstripNull (utf8Decode (nameSliceAt f es i)) := by
  unfold idxName nameSliceAt
  rw [take_drop_take f 4 (es * count) (i * es) (es - 4) ?_]
  have h1 : (i + 1) * es ≤ count * es := Nat.mul_le_mul_right es (by omega)
  rw [Nat.succ_mul] at h1
  have h2 : es * count = count * es := Nat.mul_comm es count
  omega

/-- Inside the buffered index block the trailing-field slice of a record
of the index equals the corresponding file slice. -/
theorem idxTrail_eq (f : List Nat) (es count i : Nat) (h4 : 4 ≤ es) (hi : i < count) :
    idxTrail ((f.drop 4).take (es * count)) es i = unpackU32 (trailSliceAt f es i) := by
  unfold idxTrail trailSliceAt
  rw [take_drop_take f 4 (es * count) (i * es + es - 4) 4 ?_]
  have h1 : (i + 1) * es ≤ count * es := Nat.mul_le_mul_right es (by omega)
  rw [Nat.succ_mul] at h1
  have h2 : es * count = count * es := Nat.mul_comm es count
  omega

/-- Record 0's trailing field is the probe read at 0x14 under the 0x14
layout hypothesis. -/
theorem trailSliceAt_zero_x14 (f : List Nat) :
    trailSliceAt f 0x14 0 = (f.drop 0x14).take 4 := by
  unfold trailSliceAt
  norm_num

/-- Record 0's trailing field is the probe read at 0x20 under the 0x20
layout hypothesis. -/
theorem trailSliceAt_zero_x20 (f : List Nat) :
    trailSliceAt f 0x20 0 = (f.drop 0x20).take 4 := by
  unfold trailSliceAt
  norm_num

/-- A successful detection yields one of the two record sizes, paired
with the corresponding probe value, and asserts the corresponding
self-consistency equation. -/
theorem detectLayout_elim {count o1 o2 es next0 : Nat}
    (h : detectLayout count o1 o2 = some (es, next0)) :
    (es = 0x14 ∧ next0 = o1 ∧ 4 + count * 0x14 = maskC o1) ∨
      (es = 0x20 ∧ next0 = o2 ∧ ¬ 4 + count * 0x14 = maskC o1 ∧
        4 + count * 0x20 = maskC o2) := by
  unfold detectLayout at h
  by_cases h1 : 4 + count * 0x14 = maskC o1
  · rw [if_pos h1] at h
    rw [Option.some.injEq, Prod.mk.injEq] at h
    exact Or.inl ⟨h.1.symm, h.2.symm, h1⟩
  · rw [if_neg h1] at h
    by_cases h2 : 4 + count * 0x20 = maskC o2
    · rw [if_pos h2] at h
      rw [Option.some.injEq, Prod.mk.injEq] at h
      exact Or.inr ⟨h.1.symm, h.2.symm, h1, h2⟩
    · rw [if_neg h2] at h
      exact absurd h (by simp)

/-- Under the hypotheses recorded on the way into the loop, `try_open`
is the loop on the buffered index block. -/
theorem try_open_eq_loop {f : List Nat} {count o1 o2 es next0 : Nat}
    (hcount : unpackU32 (f.take 4) = some count)
    (hsane : is_sane_count count = true)
    (ho1 : unpackU32 ((f.drop 0x14).take 4) = some o1)
    (ho2 : unpackU32 ((f.drop 0x20).take 4) = some o2)
    (hdet : detectLayout count o1 o2 = some (es, next0)) :
    try_open f = openLoop f ((f.drop 4).take (es * count)) es count 0 next0 := by
  simp only [try_open, hcount, hsane, ho1, ho2, hdet, if_true]

/-- `try_open` returns the mismatch result on an insane count. -/
theorem try_open_insane {f : List Nat} {count : Nat}
    (hcount : unpackU32 (f.take 4) = some count)
    (hsane : is_sane_count count = false) :
    try_open f = .mismatch := by
  simp only [try_open, hcount, hsane, Bool.false_eq_true, if_false]

/-- `try_open` returns the mismatch result when neither layout fits. -/
theorem try_open_nodetect {f : List Nat} {count o1 o2 : Nat}
    (hcount : unpackU32 (f.take 4) = some count)
    (hsane : is_sane_count count = true)
    (ho1 : unpackU32 ((f.drop 0x14).take 4) = some o1)
    (ho2 : unpackU32 ((f.drop 0x20).take 4) = some o2)
    (hdet : detectLayout count o1 o2 = none) :
    try_open f = .mismatch := by
  simp only [try_open, hcount, hsane, ho1, ho2, hdet, if_true]

/-! ### Synthetic archives (the spec's round-trip property)

`mkArchive` builds the synthetic archives quantified over by the spec's
round-trip property: a chosen record size, a count taken from the list
length, records of null-padded name bytes followed by the packed
`flags`/offset field, and the payloads laid out contiguously after the
index, with each entry's stored offset pointing at its payload. -/

/-- One entry of a synthetic archive: name bytes, flag bits, payload. -/
structure SpecEntry where
  name : List Nat
  flags : Nat
  payload : List Nat
deriving DecidableEq, Repr

/-- A name field: the name bytes padded with NULs to `es - 4` bytes. -/
def padName (es : Nat) (name : List Nat) : List Nat :=
  name ++ List.replicate (es - 4 - name.length) 0

/-- The index block: one record per entry, offsets accumulated from `o`. -/
def indexBlock (es : Nat) : Nat → List SpecEntry → List Nat
  | _, [] => []
  | o, e :: rest =>
    padName es e.name ++ le4 (e.flags * 2 ^ 30 + o) ++
      indexBlock es (o + e.payload.length) rest

/-- The payload area: the payloads in index order. -/
def payloadBlock : List SpecEntry → List Nat
  | [] => []
  | e :: rest => e.payload ++ payloadBlock rest

/-- A synthetic archive: count, index block starting at offset 4 with the
first payload placed right after the index, payloads contiguous. -/
def mkArchive (es : Nat) (entries : List SpecEntry) : List Nat :=
  le4 entries.length ++ indexBlock es (4 + es * entries.length) entries ++
    payloadBlock entries

/-- The directory the round-trip property expects back: entry `i` carries
its name, its accumulated offset, its payload length as size, and the
kind derived from its flags and name. -/
def expectedDir : Nat → List SpecEntry → List DirEntry
  | _, [] => []
  | o, e :: rest =>
    classify e.name o (e.payload.length : Int) e.flags ::
      expectedDir (o + e.payload.length) rest

/-- A well-formed synthetic entry: NUL-free ASCII name bytes that fit the
name field and pass validation, and flag bits that fit two bits. -/
def GoodEntry (es : Nat) (e : SpecEntry) : Prop :=
  (∀ b ∈ e.name, 1 ≤ b ∧ b ≤ 0x7F) ∧ e.name.length ≤ es - 4 ∧
    is_valid_entry_name e.name = true ∧ e.flags < 4

instance decGoodEntry (es : Nat) (e : SpecEntry) : Decidable (GoodEntry es e) := by
  unfold GoodEntry
  exact inferInstance

theorem take_append_exact {α : Type} (l₁ l₂ : List α) (n : Nat) (h : l₁.length = n) :
    (l₁ ++ l₂).take n = l₁ := by
  subst h
  exact List.take_left l₁ l₂

theorem drop_append_exact {α : Type} (l₁ l₂ : List α) (n : Nat) (h : l₁.length = n) :
    (l₁ ++ l₂).drop n = l₂ := by
  subst h
  exact List.drop_left l₁ l₂

theorem length_padName {es : Nat} {name : List Nat} (h : name.length ≤ es - 4) :
    (padName es name).length = es - 4 := by
  unfold padName
  rw [List.length_append, List.length_replicate]
  omega

/-- Re-associated record view of the index block. -/
theorem indexBlock_cons (es o : Nat) (e : SpecEntry) (l : List SpecEntry) :
    indexBlock es o (e :: l) =
      (padName es e.name ++ le4 (e.flags * 2 ^ 30 + o)) ++
        indexBlock es (o + e.payload.length) l := by
  rw [indexBlock, List.append_assoc]

theorem length_record {es : Nat} {name : List Nat} (h4 : 4 ≤ es) (h : name.length ≤ es - 4)
    (pk : Nat) : (padName es name ++ le4 pk).length = es := by
  rw [List.length_append, length_padName h, length_le4]
  omega

theorem length_indexBlock (es : Nat) (h4 : 4 ≤ es) :
    ∀ (l : List SpecEntry) (o : Nat), (∀ e ∈ l, e.name.length ≤ es - 4) →
      (indexBlock es o l).length = es * l.length := by
  intro l
  induction l with
  | nil => intro o _; simp [indexBlock]
  | cons e rest ih =>
    intro o h
    rw [indexBlock_cons, List.length_append,
      length_record h4 (h e (List.mem_cons_self e rest)) _,
      ih _ (fun x hx => h x (List.mem_cons_of_mem e hx)), List.length_cons]
    ring

/-- The name slice of the head record of an index block. -/
theorem indexBlock_name (es o : Nat) (h4 : 4 ≤ es) (e : SpecEntry) (l : List SpecEntry)
    (h : e.name.length ≤ es - 4) :
    (indexBlock es o (e :: l)).take (es - 4) = padName es e.name := by
  rw [indexBlock_cons, List.append_assoc]
  exact take_append_exact _ _ _ (length_padName h)

/-- Dropping one record of an index block. -/
theorem indexBlock_drop (es o : Nat) (h4 : 4 ≤ es) (e : SpecEntry) (l : List SpecEntry)
    (h : e.name.length ≤ es - 4) :
    (indexBlock es o (e :: l)).drop es = indexBlock es (o + e.payload.length) l := by
  rw [indexBlock_cons]
  exact drop_append_exact _ _ _ (length_record h4 h _)

/-- The trailing field of the second record of an index block. -/
theorem indexBlock_trail2 (es o : Nat) (h4 : 4 ≤ es) (e e2 : SpecEntry)
    (l : List SpecEntry) (h : e.name.length ≤ es - 4) (h2 : e2.name.length ≤ es - 4) :
    ((indexBlock es o (e :: e2 :: l)).drop (2 * es - 4)).take 4 =
      le4 (e2.flags * 2 ^ 30 + (o + e.payload.length)) := by
  rw [indexBlock_cons]
  rw [List.drop_append_eq_append_drop,
    List.drop_eq_nil_of_le (by rw [length_record h4 h]; omega), List.nil_append,
    length_record h4 h]
  rw [show 2 * es - 4 - es = es - 4 by omega]
  rw [indexBlock_cons, List.append_assoc]
  rw [drop_append_exact _ _ _ (length_padName h2)]
  exact take_append_exact _ _ _ (length_le4 _)

/-- Packaged success step for the loop. -/
theorem openLoop_succ_ok {f idx : List Nat} {es rem i next next2 : Nat}
    {decoded : List Nat} {rest : List DirEntry}
    (hdec : utf8Decode ((idx.drop (i * es)).take (es - 4)) = some decoded)
    (hval : is_valid_entry_name (rstripNull decoded) = true)
    (hnext : (if rem = 0 then some f.length
              else unpackU32 ((idx.drop ((i + 1) * es + es - 4)).take 4)) = some next2)
    (hrec : openLoop f idx es rem (i + 1) next2 = .ok rest) :
    openLoop f idx es (rem + 1) i next =
      .ok (classify (rstripNull decoded) (maskC next)
        ((maskC next2 : Int) - (maskC next : Int)) (next / 2 ^ 30) :: rest) := by
  rw [openLoop_succ_eq hdec hval hnext, hrec]

/-- All bytes of a padded well-formed name are ASCII. -/
theorem padName_ascii {es : Nat} {name : List Nat} (h : ∀ b ∈ name, 1 ≤ b ∧ b ≤ 0x7F) :
    ∀ b ∈ padName es name, b < 0x80 := by
  intro b hb
  rcases List.mem_append.mp hb with hn | hr
  · have := (h b hn).2
    omega
  · rw [List.eq_of_mem_replicate hr]
    omega

/-- The loop decodes a well-formed synthetic index block back into the
expected directory. -/
theorem openLoop_mkArchive {f idx : List Nat} {es : Nat} (h4 : 4 ≤ es)
    (hflen : f.length < 2 ^ 30) :
    ∀ (l : List SpecEntry) (e : SpecEntry) (o i : Nat),
      (∀ x ∈ e :: l, GoodEntry es x) →
      idx.drop (i * es) = indexBlock es o (e :: l) →
      o + (payloadBlock (e :: l)).length = f.length →
      openLoop f idx es (l.length + 1) i (e.flags * 2 ^ 30 + o) =
        .ok (expectedDir o (e :: l)) := by
  intro l
  induction l with
  | nil =>
    intro e o i hgood hidx ho
    obtain ⟨hbytes, hnlen, hvalid, hflags⟩ := hgood e (List.mem_cons_self e [])
    have hplen : (payloadBlock [e]).length = e.payload.length := by
      rw [payloadBlock, payloadBlock, List.append_nil]
    rw [hplen] at ho
    have ho_lt : o < 2 ^ 30 := by omega
    have hslice : (idx.drop (i * es)).take (es - 4) = padName es e.name := by
      rw [hidx]
      exact indexBlock_name es o h4 e [] hnlen
    have hdec : utf8Decode ((idx.drop (i * es)).take (es - 4)) =
        some (padName es e.name) := by
      rw [hslice]
      exact utf8Decode_ascii _ (padName_ascii hbytes)
    have hname : rstripNull (padName es e.name) = e.name :=
      rstripNull_pad _ _ (fun b hb => (hbytes b hb).1)
    have hval2 : is_valid_entry_name (rstripNull (padName es e.name)) = true := by
      rw [hname]
      exact hvalid
    have hnext : (if (0 : Nat) = 0 then some f.length
        else unpackU32 ((idx.drop ((i + 1) * es + es - 4)).take 4)) = some f.length :=
      if_pos rfl
    have hrec : openLoop f idx es 0 (i + 1) f.length = .ok [] := rfl
    simp only [List.length_nil]
    rw [openLoop_succ_ok hdec hval2 hnext hrec]
    rw [expectedDir, expectedDir]
    rw [hname, flags_packed hflags ho_lt, maskC_packed hflags ho_lt,
      maskC_of_lt hflen]
    have hsz : ((f.length : Nat) : Int) - (o : Int) = (e.payload.length : Int) := by
      rw [← ho]
      push_cast
      ring
    rw [hsz]
  | cons e2 rest ih =>
    intro e o i hgood hidx ho
    obtain ⟨hbytes, hnlen, hvalid, hflags⟩ := hgood e (List.mem_cons_self e (e2 :: rest))
    obtain ⟨hbytes2, hnlen2, hvalid2, hflags2⟩ :=
      hgood e2 (List.mem_cons_of_mem e (List.mem_cons_self e2 rest))
    have hplen : (payloadBlock (e :: e2 :: rest)).length =
        e.payload.length + (payloadBlock (e2 :: rest)).length := by
      rw [payloadBlock, List.length_append]
    rw [hplen] at ho
    have ho_lt : o < 2 ^ 30 := by omega
    have ho2_lt : o + e.payload.length < 2 ^ 30 := by omega
    have hslice : (idx.drop (i * es)).take (es - 4) = padName es e.name := by
      rw [hidx]
      exact indexBlock_name es o h4 e (e2 :: rest) hnlen
    have hdec : utf8Decode ((idx.drop (i * es)).take (es - 4)) =
        some (padName es e.name) := by
      rw [hslice]
      exact utf8Decode_ascii _ (padName_ascii hbytes)
    have hname : rstripNull (padName es e.name) = e.name :=
      rstripNull_pad _ _ (fun b hb => (hbytes b hb).1)
    have hval2 : is_valid_entry_name (rstripNull (padName es e.name)) = true := by
      rw [hname]
      exact hvalid
    have hdd : idx.drop ((i + 1) * es + es - 4) = (idx.drop (i * es)).drop (2 * es - 4) := by
      rw [List.drop_drop]
      congr 1
      rw [Nat.succ_mul]
      omega
    have htslice : (idx.drop ((i + 1) * es + es - 4)).take 4 =
        le4 (e2.flags * 2 ^ 30 + (o + e.payload.length)) := by
      rw [hdd, hidx]
      exact indexBlock_trail2 es o h4 e e2 rest hnlen hnlen2
    have hpk2 : e2.flags * 2 ^ 30 + (o + e.payload.length) < 2 ^ 32 := by omega
    have hnext : (if rest.length + 1 = 0 then some f.length
        else unpackU32 ((idx.drop ((i + 1) * es + es - 4)).take 4)) =
        some (e2.flags * 2 ^ 30 + (o + e.payload.length)) := by
      rw [if_neg (Nat.succ_ne_zero rest.length), htslice]
      exact unpackU32_le4_of_lt hpk2
    have hdd2 : idx.drop ((i + 1) * es) = (idx.drop (i * es)).drop es := by
      rw [List.drop_drop]
      congr 1
      rw [Nat.succ_mul]
    have hidx2 : idx.drop ((i + 1) * es) =
        indexBlock es (o + e.payload.length) (e2 :: rest) := by
      rw [hdd2, hidx]
      exact indexBlock_drop es o h4 e (e2 :: rest) hnlen
    have hrec := ih e2 (o + e.payload.length) (i + 1)
      (fun x hx => hgood x (List.mem_cons_of_mem e hx)) hidx2 (by omega)
    simp only [List.length_cons]
    rw [openLoop_succ_ok hdec hval2 hnext hrec]
    have hsz : ((o + e.payload.length : Nat) : Int) - (o : Int) =
        (e.payload.length : Int) := by
      push_cast
      ring
    simp only [expectedDir]
    rw [hname, flags_packed hflags ho_lt, maskC_packed hflags ho_lt,
      maskC_packed hflags2 ho2_lt, hsz]

theorem mkArchive_length (es : Nat) (h4 : 4 ≤ es) (entries : List SpecEntry)
    (hn : ∀ e ∈ entries, e.name.length ≤ es - 4) :
    (mkArchive es entries).length =
      4 + es * entries.length + (payloadBlock entries).length := by
  unfold mkArchive
  rw [List.length_append, List.length_append, length_le4,
    length_indexBlock es h4 entries _ hn]

theorem mkArchive_count (es : Nat) (entries : List SpecEntry)
    (hlt : entries.length < 2 ^ 32) :
    unpackU32 ((mkArchive es entries).take 4) = some entries.length := by
  unfold mkArchive
  rw [List.append_assoc,
    take_append_exact (le4 entries.length) _ 4 (length_le4 _)]
  exact unpackU32_le4_of_lt hlt

theorem mkArchive_idx (es : Nat) (h4 : 4 ≤ es) (entries : List SpecEntry)
    (hn : ∀ e ∈ entries, e.name.length ≤ es - 4) :
    ((mkArchive es entries).drop 4).take (es * entries.length) =
      indexBlock es (4 + es * entries.length) entries := by
  unfold mkArchive
  rw [List.append_assoc,
    drop_append_exact (le4 entries.length) _ 4 (length_le4 _)]
  exact take_append_exact _ _ _
    (length_indexBlock es h4 entries _ hn)

/-- The probe value read at file offset `es` of a synthetic archive is
the first record's packed field. -/
theorem mkArchive_probe (es : Nat) (h4 : 4 ≤ es) (e : SpecEntry) (rest : List SpecEntry)
    (hn : e.name.length ≤ es - 4) :
    ((mkArchive es (e :: rest)).drop es).take 4 =
      le4 (e.flags * 2 ^ 30 + (4 + es * (e :: rest).length)) := by
  unfold mkArchive
  rw [List.append_assoc, List.drop_append_eq_append_drop,
    List.drop_eq_nil_of_le (by rw [length_le4]; omega), List.nil_append, length_le4]
  rw [indexBlock_cons, List.append_assoc]
  rw [drop_append_of_le _ _ (es - 4)
    (by rw [length_record h4 hn]; omega)]
  rw [drop_append_exact _ _ _ (length_padName hn)]
  exact take_append_exact _ _ _ (length_le4 _)

theorem unpack_slice_isSome {f : List Nat} {p : Nat} (h : p + 4 ≤ f.length) :
    ∃ v, unpackU32 ((f.drop p).take 4) = some v := by
  have hlen : ((f.drop p).take 4).length = 4 := by
    rw [List.length_take, List.length_drop]
    omega
  exact Option.isSome_iff_exists.mp (unpackU32_isSome hlen)

/-- The amended round-trip property: a well-formed synthetic archive is
recovered exactly by `try_open`, provided the archive is at least 0x24
bytes long (otherwise the probe read at 0x20 raises, see the end-to-end
analysis) and, for the 0x20 record size, the 0x14 self-consistency
equation does not spuriously hold for the probe read at 0x14 (otherwise
the detection tie-break picks the 0x14 layout first). -/
theorem roundtrip_mkArchive (es : Nat) (entries : List SpecEntry)
    (hes : es = 0x14 ∨ es = 0x20)
    (hne : entries ≠ [])
    (hcnt : entries.length < 100000)
    (hgood : ∀ e ∈ entries, GoodEntry es e)
    (hfit : 4 + es * entries.length + (payloadBlock entries).length < 2 ^ 30)
    (hlen24 : 0x24 ≤ (mkArchive es entries).length)
    (hnocol : ∀ v, unpackU32 (((mkArchive es entries).drop 0x14).take 4) = some v →
      es = 0x20 → ¬ 4 + entries.length * 0x14 = maskC v) :
    try_open (mkArchive es entries) =
      .ok (expectedDir (4 + es * entries.length) entries) := by
  have h4 : 4 ≤ es := by rcases hes with h | h <;> omega
  have hn : ∀ e ∈ entries, e.name.length ≤ es - 4 :=
    fun e he => (hgood e he).2.1
  have hflen : (mkArchive es entries).length < 2 ^ 30 := by
    rw [mkArchive_length es h4 entries hn]
    exact hfit
  have hcount := mkArchive_count es entries (by omega)
  cases entries with
  | nil => exact absurd rfl hne
  | cons e rest =>
    have hlc : (e :: rest).length = rest.length + 1 := List.length_cons e rest
    have hsane : is_sane_count (e :: rest).length = true := by
      unfold is_sane_count
      rw [hlc]
      exact decide_eq_true (by omega)
    obtain ⟨hbytes, hnlen, hvalid, hflags⟩ := hgood e (List.mem_cons_self e rest)
    have ho0_lt : 4 + es * (e :: rest).length < 2 ^ 30 := by omega
    have hprobe := mkArchive_probe es h4 e rest hnlen
    have hpk_lt : e.flags * 2 ^ 30 + (4 + es * (e :: rest).length) < 2 ^ 32 := by omega
    have hprobe_val : unpackU32 (((mkArchive es (e :: rest)).drop es).take 4) =
        some (e.flags * 2 ^ 30 + (4 + es * (e :: rest).length)) := by
      rw [hprobe]
      exact unpackU32_le4_of_lt hpk_lt
    have hmask : maskC (e.flags * 2 ^ 30 + (4 + es * (e :: rest).length)) =
        4 + es * (e :: rest).length := maskC_packed hflags ho0_lt
    have hlen36 : 0x24 ≤ (mkArchive es (e :: rest)).length := hlen24
    have hloop : openLoop (mkArchive es (e :: rest))
        (((mkArchive es (e :: rest)).drop 4).take (es * (e :: rest).length)) es
        ((e :: rest).length) 0
        (e.flags * 2 ^ 30 + (4 + es * (e :: rest).length)) =
        .ok (expectedDir (4 + es * (e :: rest).length) (e :: rest)) := by
      rw [mkArchive_idx es h4 (e :: rest) hn, hlc]
      exact openLoop_mkArchive h4 hflen rest e (4 + es * (rest.length + 1)) 0 hgood
        (by rw [Nat.zero_mul, List.drop_zero])
        (by rw [mkArchive_length es h4 (e :: rest) hn, hlc])
    rcases hes with h14 | h20
    · subst h14
      obtain ⟨v2, hv2⟩ := unpack_slice_isSome
        (by omega : (0x20 : Nat) + 4 ≤ (mkArchive 0x14 (e :: rest)).length)
      have hdet : detectLayout (e :: rest).length
          (e.flags * 2 ^ 30 + (4 + 0x14 * (e :: rest).length)) v2 =
          some (0x14, e.flags * 2 ^ 30 + (4 + 0x14 * (e :: rest).length)) := by
        unfold detectLayout
        rw [if_pos (by rw [hmask, Nat.mul_comm])]
      rw [try_open_eq_loop hcount hsane hprobe_val hv2 hdet]
      exact hloop
    · subst h20
      obtain ⟨v1, hv1⟩ := unpack_slice_isSome
        (by omega : (0x14 : Nat) + 4 ≤ (mkArchive 0x20 (e :: rest)).length)
      have hneq1 := hnocol v1 hv1 rfl
      have hdet : detectLayout (e :: rest).length v1
          (e.flags * 2 ^ 30 + (4 + 0x20 * (e :: rest).length)) =
          some (0x20, e.flags * 2 ^ 30 + (4 + 0x20 * (e :: rest).length)) := by
        unfold detectLayout
        rw [if_neg hneq1, if_pos (by rw [hmask, Nat.mul_comm])]
      rw [try_open_eq_loop hcount hsane hv1 hprobe_val hdet]
      exact hloop

theorem try_open_err_count {f : List Nat} (h : unpackU32 (f.take 4) = none) :
    try_open f = .error := by
  simp only [try_open, h]

theorem try_open_err_probe1 {f : List Nat} {count : Nat}
    (hcount : unpackU32 (f.take 4) = some count)
    (hsane : is_sane_count count = true)
    (h1 : unpackU32 ((f.drop 0x14).take 4) = none) :
    try_open f = .error := by
  simp only [try_open, hcount, hsane, h1, if_true]

theorem try_open_err_probe2 {f : List Nat} {count o1 : Nat}
    (hcount : unpackU32 (f.take 4) = some count)
    (hsane : is_sane_count count = true)
    (ho1 : unpackU32 ((f.drop 0x14).take 4) = some o1)
    (h2 : unpackU32 ((f.drop 0x20).take 4) = none) :
    try_open f = .error := by
  simp only [try_open, hcount, hsane, ho1, h2, if_true]

/-- Inversion: a directory is only ever produced through the full chain
of checks and the decoding loop. -/
theorem try_open_ok_elim {f : List Nat} {l : List DirEntry} (h : try_open f = .ok l) :
    ∃ count o1 o2 es next0,
      unpackU32 (f.take 4) = some count ∧ is_sane_count count = true ∧
      unpackU32 ((f.drop 0x14).take 4) = some o1 ∧
      unpackU32 ((f.drop 0x20).take 4) = some o2 ∧
      detectLayout count o1 o2 = some (es, next0) ∧
      openLoop f ((f.drop 4).take (es * count)) es count 0 next0 = .ok l := by
  cases hcount : unpackU32 (f.take 4) with
  | none => rw [try_open_err_count hcount] at h; exact absurd h (by intro hx; cases hx)
  | some count =>
    cases hsane : is_sane_count count with
    | false => rw [try_open_insane hcount hsane] at h; exact absurd h (by intro hx; cases hx)
    | true =>
      cases ho1 : unpackU32 ((f.drop 0x14).take 4) with
      | none =>
        rw [try_open_err_probe1 hcount hsane ho1] at h
        exact absurd h (by intro hx; cases hx)
      | some o1 =>
        cases ho2 : unpackU32 ((f.drop 0x20).take 4) with
        | none =>
          rw [try_open_err_probe2 hcount hsane ho1 ho2] at h
          exact absurd h (by intro hx; cases hx)
        | some o2 =>
          cases hdet : detectLayout count o1 o2 with
          | none =>
            rw [try_open_nodetect hcount hsane ho1 ho2 hdet] at h
            exact absurd h (by intro hx; cases hx)
          | some p =>
            obtain ⟨es, next0⟩ := p
            rw [try_open_eq_loop hcount hsane ho1 ho2 hdet] at h
            exact ⟨count, o1, o2, es, next0, rfl, hsane, rfl, rfl, hdet, h⟩

/-- Inversion: the mismatch result arises only from the count check, the
layout check, or an invalid name found by the loop. -/
theorem try_open_mismatch_elim {f : List Nat} (h : try_open f = .mismatch) :
    (∃ count, unpackU32 (f.take 4) = some count ∧ is_sane_count count = false) ∨
    (∃ count o1 o2,
      unpackU32 (f.take 4) = some count ∧ is_sane_count count = true ∧
      unpackU32 ((f.drop 0x14).take 4) = some o1 ∧
      unpackU32 ((f.drop 0x20).take 4) = some o2 ∧
      detectLayout count o1 o2 = none) ∨
    (∃ count o1 o2 es next0,
      unpackU32 (f.take 4) = some count ∧ is_sane_count count = true ∧
      unpackU32 ((f.drop 0x14).take 4) = some o1 ∧
      unpackU32 ((f.drop 0x20).take 4) = some o2 ∧
      detectLayout count o1 o2 = some (es, next0) ∧
      openLoop f ((f.drop 4).take (es * count)) es count 0 next0 = .mismatch) := by
  cases hcount : unpackU32 (f.take 4) with
  | none => rw [try_open_err_count hcount] at h; exact absurd h (by intro hx; cases hx)
  | some count =>
    cases hsane : is_sane_count count with
    | false => exact Or.inl ⟨count, rfl, hsane⟩
    | true =>
      cases ho1 : unpackU32 ((f.drop 0x14).take 4) with
      | none =>
        rw [try_open_err_probe1 hcount hsane ho1] at h
        exact absurd h (by intro hx; cases hx)
      | some o1 =>
        cases ho2 : unpackU32 ((f.drop 0x20).take 4) with
        | none =>
          rw [try_open_err_probe2 hcount hsane ho1 ho2] at h
          exact absurd h (by intro hx; cases hx)
        | some o2 =>
          cases hdet : detectLayout count o1 o2 with
          | none => exact Or.inr (Or.inl ⟨count, o1, o2, rfl, hsane, rfl, rfl, hdet⟩)
          | some p =>
            obtain ⟨es, next0⟩ := p
            rw [try_open_eq_loop hcount hsane ho1 ho2 hdet] at h
            exact Or.inr (Or.inr ⟨count, o1, o2, es, next0, rfl, hsane, rfl, rfl, hdet, h⟩)

/-! ### Claim theorems -/

/-- C1 (amended).  Round-trip recovery: for every synthetic archive
serialized with a record size in {0x14, 0x20}, a count with
0 < count < 100000, valid NUL-free ASCII names that fit their field,
two-bit flags, the packed offset/flags scheme and contiguous payloads
(all offsets below 2^30), try_open succeeds and returns exactly the
original count of entries with the original names, offsets, derived
sizes and flag-derived kinds in index order — PROVIDED additionally that
the file is at least 0x24 bytes long (otherwise the unconditional probe
read at 0x20 raises struct.error) and that, when the record size is
0x20, the 0x14 self-consistency equation does not spuriously hold
(otherwise the tie-break selects the 0x14 layout and returns different
entries, see the counterexample). -/
theorem c1_roundtrip_amended (es : Nat) (entries : List SpecEntry)
    (hes : es = 0x14 ∨ es = 0x20)
    (hne : entries ≠ [])
    (hcnt : entries.length < 100000)
    (hgood : ∀ e ∈ entries, GoodEntry es e)
    (hfit : 4 + es * entries.length + (payloadBlock entries).length < 2 ^ 30)
    (hlen24 : 0x24 ≤ (mkArchive es entries).length)
    (hnocol : ∀ v, unpackU32 (((mkArchive es entries).drop 0x14).take 4) = some v →
      es = 0x20 → ¬ 4 + entries.length * 0x14 = maskC v) :
    try_open (mkArchive es entries) =
      .ok (expectedDir (4 + es * entries.length) entries) :=
  roundtrip_mkArchive es entries hes hne hcnt hgood hfit hlen24 hnocol

/-- Concrete synthetic entry used by the C1 witness. -/
def c1wEntries : List SpecEntry := [⟨[65, 66], 0, List.replicate 12 0⟩]

/-- C1 witness: the amended round-trip at a concrete 0x14 archive. -/
theorem c1_roundtrip_amended_witness :
    try_open (mkArchive 0x14 c1wEntries) =
      .ok (expectedDir (4 + 0x14 * c1wEntries.length) c1wEntries) :=
  c1_roundtrip_amended 0x14 c1wEntries (Or.inl rfl) (by decide) (by decide) (by decide)
    (by decide) (by decide) (fun v hv h20 => absurd h20 (by decide))

/-- The C1 counterexample entry: a 17-byte name whose byte at index 16 is
0x18, so that in the serialized 0x20 archive the u32 read at file offset
0x14 is 0x18 = 4 + 1*0x14 and the 0x14 detection equation spuriously
holds. -/
def cex1Spec : SpecEntry := ⟨List.replicate 16 65 ++ [24], 0, [87, 88, 89, 90]⟩

/-- The serialized C1 counterexample archive (record size 0x20, one
entry, self-consistent packed field 36 = 4 + 1*0x20, payload of 4
bytes). -/
def cex1File : List Nat := mkArchive 0x20 [cex1Spec]

/-- C1 (counterexample).  The claim as stated fails: this synthetic 0x20
archive with a valid name, a self-consistent packed offset/flags scheme
and a contiguous payload is opened successfully, but the returned
directory does not carry the original name, offset and size — the 0x14
layout wins the detection tie-break and misparses the index. -/
theorem c1_roundtrip_cex :
    (0 < ([cex1Spec] : List SpecEntry).length ∧ ([cex1Spec] : List SpecEntry).length < 100000) ∧
    GoodEntry 0x20 cex1Spec ∧
    4 + 0x20 * ([cex1Spec] : List SpecEntry).length +
      (payloadBlock [cex1Spec]).length < 2 ^ 30 ∧
    try_open cex1File =
      .ok [DirEntry.cgf ⟨List.replicate 16 65, "image", 24, 16⟩ 0] ∧
    ¬ try_open cex1File =
      .ok (expectedDir (4 + 0x20 * ([cex1Spec] : List SpecEntry).length) [cex1Spec]) := by
  decide

/-- C5.  Classification: an entry is the plain (Generic) variant exactly
when its flags equal 1 or its lowered name ends in ".iaf"; otherwise it is
the CgfEntry (Image) variant carrying the flags; a ".iaf" name forces
the plain variant whatever the flags; and every record decoded by
try_open is produced by this classification. -/
theorem c5_classification :
    (∀ (name : List Nat) (offset : Nat) (size : Int) (flags : Nat),
      (flags = 1 ∨ endsIaf name = true) →
      classify name offset size flags = DirEntry.plain ⟨name, "image", offset, size⟩) ∧
    (∀ (name : List Nat) (offset : Nat) (size : Int) (flags : Nat),
      ¬ (flags = 1 ∨ endsIaf name = true) →
      classify name offset size flags = DirEntry.cgf ⟨name, "image", offset, size⟩ flags) ∧
    (∀ (name : List Nat) (offset : Nat) (size : Int) (flags : Nat),
      endsIaf name = true →
      classify name offset size flags = DirEntry.plain ⟨name, "image", offset, size⟩) ∧
    (∀ (f : List Nat) (l : List DirEntry), try_open f = .ok l →
      ∀ d ∈ l, ∃ n o s fl, d = classify n o s fl) := by
  refine ⟨?_, ?_, ?_, ?_⟩
  · intro name offset size flags hc
    unfold classify
    rw [if_pos hc]
  · intro name offset size flags hc
    unfold classify
    rw [if_neg hc]
  · intro name offset size flags hc
    unfold classify
    rw [if_pos (Or.inr hc)]
  · intro f l hopen d hd
    obtain ⟨count, o1, o2, es, next0, _, _, _, _, _, hloop⟩ := try_open_ok_elim hopen
    exact openLoop_ok_classify hloop d hd

/-- C5 witness: a name ending in ".IAF" with flag bits 2 (nonzero and
not 1) still produces the plain (Generic) entry. -/
theorem c5_classification_witness :
    classify [88, 46, 73, 65, 70] 5 7 2 =
      DirEntry.plain ⟨[88, 46, 73, 65, 70], "image", 5, 7⟩ :=
  c5_classification.2.2.1 [88, 46, 73, 65, 70] 5 7 2 (by decide)

/-- C6.  Extraction transform: whenever the entry content read from the
archive has at least 3 bytes, the extractor writes exactly 4 zero bytes,
then 3 zero bytes, then the content from its fourth byte on, for a total
of content length + 4; the transform never inspects the entry kind or
flags (extract_file receives only offset and size). -/
theorem c6_extract_transform (f : List Nat) (offset : Nat) (size : Int)
    (h : 3 ≤ (fileReadAt f offset size).length) :
    extract_file f offset size =
      List.replicate 7 0 ++ (fileReadAt f offset size).drop 3 ∧
    (extract_file f offset size).length = (fileReadAt f offset size).length + 4 := by
  constructor
  · rfl
  · show ([0, 0, 0, 0] ++ ([0, 0, 0] ++ (fileReadAt f offset size).drop 3)).length =
      (fileReadAt f offset size).length + 4
    simp only [List.length_append, List.length_drop, List.length_cons, List.length_nil]
    omega

/-- C6 witness: extracting 10 bytes starting at offset 0. -/
theorem c6_extract_transform_witness :
    extract_file [10, 11, 12, 13, 14, 15, 16, 17, 18, 19] 0 10 =
      List.replicate 7 0 ++
        (fileReadAt [10, 11, 12, 13, 14, 15, 16, 17, 18, 19] 0 10).drop 3 ∧
    (extract_file [10, 11, 12, 13, 14, 15, 16, 17, 18, 19] 0 10).length =
      (fileReadAt [10, 11, 12, 13, 14, 15, 16, 17, 18, 19] 0 10).length + 4 :=
  c6_extract_transform [10, 11, 12, 13, 14, 15, 16, 17, 18, 19] 0 10 (by decide)

/-- The spec's end-to-end example archive: count 1, record size 0x14,
name "A.IMG", packed trailing field holding the payload offset
0x18 = 4 + 0x14 with flag bits 0, and the 10 payload bytes
"0123456789"; total length 34 = 0x22. -/
def c9File : List Nat :=
  [1, 0, 0, 0] ++ ([65, 46, 73, 77, 71] ++ List.replicate 11 0 ++ [24, 0, 0, 0]) ++
    [48, 49, 50, 51, 52, 53, 54, 55, 56, 57]

/-- C9 (code bug).  On the spec's own end-to-end example archive the
0x14 self-consistency equation holds for the packed field, yet try_open
raises (struct.error) instead of returning the one Image entry the spec
promises, because it unconditionally reads 4 bytes at offset 0x20 and
the file is only 34 bytes long.  The extraction half of the example is
correct: extracting the described entry (offset 0x18, size 10) writes
seven zero bytes followed by "3456789". -/
theorem c9_end_to_end_bug :
    c9File.length = 34 ∧
    4 + 1 * 0x14 = maskC 24 ∧
    try_open c9File = .error ∧
    extract_file c9File 0x18 10 =
      [0, 0, 0, 0, 0, 0, 0] ++ [51, 52, 53, 54, 55, 56, 57] := by
  decide

/-- C2.  Offset carry-over and size derivation: in every accepted
archive, entry i's flags are the top 2 bits and its offset the masked
low bits of record i's own trailing 4-byte field (the first entry taking
the probe value chosen in detection, which is exactly record 0's
trailing field); the next-offset for entry i is record i+1's trailing
field when i+1 < count and the archive's total length for the last
record; and size is the masked difference. -/
theorem c2_offset_carryover (f : List Nat) (l : List DirEntry)
    (count es next0 o1 o2 : Nat)
    (hcount : unpackU32 (f.take 4) = some count)
    (hsane : is_sane_count count = true)
    (ho1 : unpackU32 ((f.drop 0x14).take 4) = some o1)
    (ho2 : unpackU32 ((f.drop 0x20).take 4) = some o2)
    (hdet : detectLayout count o1 o2 = some (es, next0))
    (hopen : try_open f = .ok l) :
    l.length = count ∧
    unpackU32 (trailSliceAt f es 0) = some next0 ∧
    ∀ i (hi : i < l.length),
      (unpackU32 (trailSliceAt f es i)).isSome = true ∧
      (Option.map rstripNull (utf8Decode (nameSliceAt f es i))).isSome = true ∧
      l.get ⟨i, hi⟩ = classify
        ((Option.map rstripNull (utf8Decode (nameSliceAt f es i))).getD [])
        (maskC ((unpackU32 (trailSliceAt f es i)).getD 0))
        ((maskC (if i + 1 < count then (unpackU32 (trailSliceAt f es (i + 1))).getD 0
            else f.length) : Int) -
          (maskC ((unpackU32 (trailSliceAt f es i)).getD 0) : Int))
        ((unpackU32 (trailSliceAt f es i)).getD 0 / 2 ^ 30) := by
  have h4 : 4 ≤ es := by
    rcases detectLayout_elim hdet with ⟨h, _⟩ | ⟨h, _⟩ <;> omega
  have hc0 : 0 < count := by
    have hs := hsane
    unfold is_sane_count at hs
    exact (of_decide_eq_true hs).1
  have htrail0 : unpackU32 (trailSliceAt f es 0) = some next0 := by
    rcases detectLayout_elim hdet with ⟨he, hn, _⟩ | ⟨he, hn, _⟩
    · subst he
      rw [trailSliceAt_zero_x14, ho1, hn]
    · subst he
      rw [trailSliceAt_zero_x20, ho2, hn]
  rw [try_open_eq_loop hcount hsane ho1 ho2 hdet] at hopen
  have hlen : l.length = count := openLoop_ok_length hopen
  have hidxtrail0 : idxTrail ((f.drop 4).take (es * count)) es 0 = some next0 :=
    (idxTrail_eq f es count 0 h4 hc0).trans htrail0
  refine ⟨hlen, htrail0, ?_⟩
  intro i hi
  have hic : i < count := hlen ▸ hi
  obtain ⟨ha, hb, hc⟩ := openLoop_entries hopen hidxtrail0 i hi
  rw [show (0 : Nat) + i = i by omega] at ha hb hc
  rw [idxTrail_eq f es count i h4 hic] at ha hc
  rw [idxName_eq f es count i h4 hic] at hb hc
  refine ⟨ha, hb, ?_⟩
  by_cases hcase : i + 1 < count
  · rw [if_pos hcase] at hc ⊢
    rw [idxTrail_eq f es count (i + 1) h4 hcase] at hc
    exact hc
  · rw [if_neg hcase] at hc ⊢
    exact hc

/-- The archive carried by the C2 witness: count 1, layout 0x14, one
entry named "A" with packed field 24 and a 12-byte payload. -/
def c2wFile : List Nat :=
  [1, 0, 0, 0] ++ ([65] ++ List.replicate 15 0 ++ [24, 0, 0, 0]) ++ List.replicate 12 0

/-- The directory try_open returns for the C2 witness archive. -/
def c2wDir : List DirEntry := [DirEntry.cgf ⟨[65], "image", 24, 12⟩ 0]

/-- C2 witness: the per-record field derivation on a concrete accepted
archive. -/
theorem c2_offset_carryover_witness :
    c2wDir.length = 1 ∧
    unpackU32 (trailSliceAt c2wFile 0x14 0) = some 24 ∧
    ∀ i (hi : i < c2wDir.length),
      (unpackU32 (trailSliceAt c2wFile 0x14 i)).isSome = true ∧
      (Option.map rstripNull (utf8Decode (nameSliceAt c2wFile 0x14 i))).isSome = true ∧
      c2wDir.get ⟨i, hi⟩ = classify
        ((Option.map rstripNull (utf8Decode (nameSliceAt c2wFile 0x14 i))).getD [])
        (maskC ((unpackU32 (trailSliceAt c2wFile 0x14 i)).getD 0))
        ((maskC (if i + 1 < 1 then (unpackU32 (trailSliceAt c2wFile 0x14 (i + 1))).getD 0
            else c2wFile.length) : Int) -
          (maskC ((unpackU32 (trailSliceAt c2wFile 0x14 i)).getD 0) : Int))
        ((unpackU32 (trailSliceAt c2wFile 0x14 i)).getD 0 / 2 ^ 30) :=
  c2_offset_carryover c2wFile c2wDir 1 0x14 24 24 0 (by decide) (by decide) (by decide)
    (by decide) (by decide) (by decide)

/-- C3.  Layout detection and tie-break: the detection step selects
record size 0x14 exactly when the 0x14 equation holds against the probe
read at 0x14; otherwise it selects 0x20 exactly when the 0x20 equation
holds against the probe read at 0x20; otherwise try_open returns the
format-mismatch result; and when both equations hold, 0x14 wins because
it is tested first. -/
theorem c3_layout_detection :
    (∀ count o1 o2 : Nat,
      (detectLayout count o1 o2 = some (0x14, o1) ↔ 4 + count * 0x14 = maskC o1) ∧
      (¬ 4 + count * 0x14 = maskC o1 →
        (detectLayout count o1 o2 = some (0x20, o2) ↔ 4 + count * 0x20 = maskC o2)) ∧
      (detectLayout count o1 o2 = none ↔
        ¬ 4 + count * 0x14 = maskC o1 ∧ ¬ 4 + count * 0x20 = maskC o2) ∧
      (4 + count * 0x14 = maskC o1 ∧ 4 + count * 0x20 = maskC o2 →
        detectLayout count o1 o2 = some (0x14, o1))) ∧
    (∀ (f : List Nat) (count o1 o2 : Nat),
      unpackU32 (f.take 4) = some count →
      is_sane_count count = true →
      unpackU32 ((f.drop 0x14).take 4) = some o1 →
      unpackU32 ((f.drop 0x20).take 4) = some o2 →
      detectLayout count o1 o2 = none →
      try_open f = .mismatch) := by
  constructor
  · intro count o1 o2
    refine ⟨⟨?_, ?_⟩, ?_, ?_, ?_⟩
    · intro h
      rcases detectLayout_elim h with ⟨_, _, heq⟩ | ⟨hes, _, _⟩
      · exact heq
      · exact absurd hes (by decide)
    · intro heq
      unfold detectLayout
      rw [if_pos heq]
    · intro hneq
      unfold detectLayout
      rw [if_neg hneq]
      constructor
      · intro h
        by_cases h2 : 4 + count * 0x20 = maskC o2
        · exact h2
        · rw [if_neg h2] at h
          exact absurd h (by simp)
      · intro h2
        rw [if_pos h2]
    · unfold detectLayout
      constructor
      · intro h
        by_cases h1 : 4 + count * 0x14 = maskC o1
        · rw [if_pos h1] at h
          exact absurd h (by simp)
        · by_cases h2 : 4 + count * 0x20 = maskC o2
          · rw [if_neg h1, if_pos h2] at h
            exact absurd h (by simp)
          · exact ⟨h1, h2⟩
      · intro ⟨h1, h2⟩
        rw [if_neg h1, if_neg h2]
    · intro ⟨h1, _⟩
      unfold detectLayout
      rw [if_pos h1]
  · intro f count o1 o2 hcount hsane ho1 ho2 hdet
    exact try_open_nodetect hcount hsane ho1 ho2 hdet

/-- C3 witness: the tie-break picks 0x14 when both equations hold, and a
concrete file matching neither layout is rejected. -/
theorem c3_layout_detection_witness :
    detectLayout 1 24 36 = some (0x14, 24) ∧
    try_open ([1, 0, 0, 0] ++ List.replicate 32 0) = .mismatch :=
  ⟨(c3_layout_detection.1 1 24 36).2.2.2 (by decide),
    c3_layout_detection.2 ([1, 0, 0, 0] ++ List.replicate 32 0) 1 0 0 (by decide)
      (by decide) (by decide) (by decide) (by decide)⟩

/-- C4.  Rejection conditions: the mismatch result is never a directory;
try_open returns it whenever the count reads as 0 or at least 100000,
whenever neither self-consistency equation holds, and whenever the first
offending record of the index decodes to a name that is empty after
NUL-stripping or contains a forbidden character (earlier records having
decoded to valid names with unpackable successor fields). -/
theorem c4_rejection :
    (∀ l : List DirEntry, TryOpenResult.mismatch = TryOpenResult.ok l → False) ∧
    (∀ (f : List Nat) (count : Nat), unpackU32 (f.take 4) = some count →
      count = 0 ∨ 100000 ≤ count → try_open f = .mismatch) ∧
    (∀ (f : List Nat) (count o1 o2 : Nat),
      unpackU32 (f.take 4) = some count →
      is_sane_count count = true →
      unpackU32 ((f.drop 0x14).take 4) = some o1 →
      unpackU32 ((f.drop 0x20).take 4) = some o2 →
      ¬ 4 + count * 0x14 = maskC o1 →
      ¬ 4 + count * 0x20 = maskC o2 →
      try_open f = .mismatch) ∧
    (∀ (f : List Nat) (count o1 o2 es next0 i : Nat) (nm : List Nat),
      unpackU32 (f.take 4) = some count →
      is_sane_count count = true →
      unpackU32 ((f.drop 0x14).take 4) = some o1 →
      unpackU32 ((f.drop 0x20).take 4) = some o2 →
      detectLayout count o1 o2 = some (es, next0) →
      i < count →
      Option.map rstripNull (utf8Decode (nameSliceAt f es i)) = some nm →
      is_valid_entry_name nm = false →
      (∀ j, j < i → ∃ nmj,
        Option.map rstripNull (utf8Decode (nameSliceAt f es j)) = some nmj ∧
        is_valid_entry_name nmj = true) →
      (∀ j, j < i → (unpackU32 (trailSliceAt f es (j + 1))).isSome = true) →
      try_open f = .mismatch) := by
  refine ⟨?_, ?_, ?_, ?_⟩
  · intro l h
    cases h
  · intro f count hcount hbad
    have hsane : is_sane_count count = false := by
      unfold is_sane_count
      exact decide_eq_false (by omega)
    exact try_open_insane hcount hsane
  · intro f count o1 o2 hcount hsane ho1 ho2 hn1 hn2
    have hdet : detectLayout count o1 o2 = none := by
      unfold detectLayout
      rw [if_neg hn1, if_neg hn2]
    exact try_open_nodetect hcount hsane ho1 ho2 hdet
  · intro f count o1 o2 es next0 i nm hcount hsane ho1 ho2 hdet hic hnm hnv hprevName hprevTrail
    have h4 : 4 ≤ es := by
      rcases detectLayout_elim hdet with ⟨h, _⟩ | ⟨h, _⟩ <;> omega
    rw [try_open_eq_loop hcount hsane ho1 ho2 hdet]
    refine openLoop_badname_at hic ?_ ?_ ?_
    · intro k hk
      obtain ⟨nmj, hj1, hj2⟩ := hprevName k hk
      refine ⟨nmj, ?_, hj2⟩
      rw [show (0 : Nat) + k = k by omega, idxName_eq f es count k h4 (by omega)]
      exact hj1
    · intro k hk
      rw [show (0 : Nat) + k + 1 = k + 1 by omega,
        idxTrail_eq f es count (k + 1) h4 (by omega)]
      exact hprevTrail k hk
    · refine ⟨nm, ?_, hnv⟩
      rw [show (0 : Nat) + i = i by omega, idxName_eq f es count i h4 hic]
      exact hnm

/-- A file matching neither layout equation (probes 0 and 0, sane
count). -/
def c4f3 : List Nat := [1, 0, 0, 0] ++ List.replicate 32 0

/-- A file whose only record has the invalid name ":". -/
def c4f4 : List Nat :=
  [1, 0, 0, 0] ++ ([58] ++ List.replicate 15 0 ++ [24, 0, 0, 0]) ++ List.replicate 12 0

/-- C4 witness: all four rejection paths exercised on concrete files. -/
theorem c4_rejection_witness :
    try_open [0, 0, 0, 0] = .mismatch ∧
    try_open [160, 134, 1, 0] = .mismatch ∧
    try_open c4f3 = .mismatch ∧
    try_open c4f4 = .mismatch :=
  ⟨c4_rejection.2.1 [0, 0, 0, 0] 0 (by decide) (Or.inl rfl),
    c4_rejection.2.1 [160, 134, 1, 0] 100000 (by decide) (Or.inr (by decide)),
    c4_rejection.2.2.1 c4f3 1 0 0 (by decide) (by decide) (by decide) (by decide)
      (by decide) (by decide),
    c4_rejection.2.2.2 c4f4 1 24 0 0x14 24 0 [58] (by decide) (by decide) (by decide)
      (by decide) (by decide) (by decide) (by decide) (by decide)
      (fun j hj => absurd hj (by omega)) (fun j hj => absurd hj (by omega))⟩

/-- C7 (amended).  Size accounting: for every accepted archive, the sum
of the returned sizes plus the index block size count*record_size plus 4
equals the archive's total file length with its bits 30 and 31 masked
off; it equals the total length itself whenever masking leaves the
length unchanged (in particular for archives shorter than 2^30 bytes).
The unmasked claim fails for archives whose length has bit 30 or 31
set, see the counterexample. -/
theorem c7_size_accounting_amended (f : List Nat) (l : List DirEntry)
    (count es next0 o1 o2 : Nat)
    (hcount : unpackU32 (f.take 4) = some count)
    (hsane : is_sane_count count = true)
    (ho1 : unpackU32 ((f.drop 0x14).take 4) = some o1)
    (ho2 : unpackU32 ((f.drop 0x20).take 4) = some o2)
    (hdet : detectLayout count o1 o2 = some (es, next0))
    (hopen : try_open f = .ok l) :
    sumSizes l + (count : Int) * (es : Int) + 4 = ((maskC f.length : Nat) : Int) ∧
    (maskC f.length = f.length →
      sumSizes l + (count : Int) * (es : Int) + 4 = (f.length : Int)) := by
  rw [try_open_eq_loop hcount hsane ho1 ho2 hdet] at hopen
  have hc0 : 0 < count := by
    have hs := hsane
    unfold is_sane_count at hs
    exact (of_decide_eq_true hs).1
  obtain ⟨n, rfl⟩ : ∃ n, count = n + 1 := ⟨count - 1, by omega⟩
  have hsum := openLoop_sum hopen
  have hmeq : maskC next0 = 4 + (n + 1) * es := by
    rcases detectLayout_elim hdet with ⟨he, hn2, heq⟩ | ⟨he, hn2, _, heq⟩
    · subst he
      rw [hn2, ← heq]
    · subst he
      rw [hn2, ← heq]
  have hmain : sumSizes l + ((n + 1 : Nat) : Int) * (es : Int) + 4 =
      ((maskC f.length : Nat) : Int) := by
    rw [hsum, hmeq]
    push_cast
    ring
  exact ⟨hmain, fun hm => by rw [hmain, hm]⟩

/-- C7 witness: size accounting on a concrete accepted archive of 36
bytes (mask is the identity there). -/
theorem c7_size_accounting_amended_witness :
    sumSizes c2wDir + (1 : Int) * ((0x14 : Nat) : Int) + 4 =
      ((maskC c2wFile.length : Nat) : Int) ∧
    (maskC c2wFile.length = c2wFile.length →
      sumSizes c2wDir + (1 : Int) * ((0x14 : Nat) : Int) + 4 = (c2wFile.length : Int)) :=
  c7_size_accounting_amended c2wFile c2wDir 1 0x14 24 24 0 (by decide) (by decide)
    (by decide) (by decide) (by decide) (by decide)

/-- The 24 concrete leading bytes of the C7 counterexample archive:
count 1, name "A", packed trailing field 24. -/
def c7Pre : List Nat :=
  [1, 0, 0, 0, 65, 0, 0, 0, 0, 0, 0, 0, 0, 0, 0, 0, 0, 0, 0, 0, 24, 0, 0, 0]

/-- The C7 counterexample archive: 2^30 + 36 bytes long, so that bit 30
of the file length is masked away during size derivation. -/
def c7File : List Nat := c7Pre ++ List.replicate (2 ^ 30 + 12) 0

/-- The directory try_open returns for the C7 counterexample. -/
def c7Dir : List DirEntry := [DirEntry.cgf ⟨[65], "image", 24, 12⟩ 0]

/-- C7 (counterexample).  For an accepted archive of 2^30 + 36 bytes the
sum of sizes plus index size plus 4 is 36, not the file length: the last
entry's size is derived from the masked length. -/
theorem c7_size_accounting_cex :
    try_open c7File = .ok c7Dir ∧
    ¬ sumSizes c7Dir + (1 : Int) * ((0x14 : Nat) : Int) + 4 = (c7File.length : Int) := by
  have hpre : c7Pre.length = 24 := by decide
  have hlen : c7File.length = 2 ^ 30 + 36 := by
    unfold c7File
    rw [List.length_append, List.length_replicate, hpre]
    omega
  have hcount : unpackU32 (c7File.take 4) = some 1 := by
    unfold c7File
    rw [take_append_of_le _ _ 4 (by rw [hpre]; omega)]
    decide
  have ho1 : unpackU32 ((c7File.drop 0x14).take 4) = some 24 := by
    unfold c7File
    rw [drop_append_of_le _ _ 0x14 (by rw [hpre]; omega)]
    rw [take_append_of_le _ _ 4 (by decide)]
    decide
  have ho2 : unpackU32 ((c7File.drop 0x20).take 4) = some 0 := by
    unfold c7File
    rw [List.drop_append_eq_append_drop, hpre]
    rw [show c7Pre.drop 0x20 = [] by decide, List.nil_append]
    rw [List.drop_replicate, List.take_replicate]
    rw [Nat.min_eq_left (by norm_num)]
    decide
  have hdet : detectLayout 1 24 0 = some (0x14, 24) := by decide
  have hidx : (c7File.drop 4).take (0x14 * 1) = c7Pre.drop 4 := by
    unfold c7File
    rw [drop_append_of_le _ _ 4 (by rw [hpre]; omega)]
    rw [take_append_of_le _ _ (0x14 * 1) (by decide)]
    decide
  have hmask36 : maskC (2 ^ 30 + 36) = 36 := by
    unfold maskC
    norm_num
  constructor
  · rw [try_open_eq_loop hcount (by decide) ho1 ho2 hdet, hidx]
    have hdec : utf8Decode (((c7Pre.drop 4).drop (0 * 0x14)).take (0x14 - 4)) =
        some ([65] ++ List.replicate 15 0) := by decide
    have hval : is_valid_entry_name (rstripNull ([65] ++ List.replicate 15 0)) = true := by
      decide
    have hnext : (if (0 : Nat) = 0 then some c7File.length
        else unpackU32 (((c7Pre.drop 4).drop ((0 + 1) * 0x14 + 0x14 - 4)).take 4)) =
        some c7File.length := if_pos rfl
    have hrec : openLoop c7File (c7Pre.drop 4) 0x14 0 (0 + 1) c7File.length = .ok [] := rfl
    rw [show (1 : Nat) = 0 + 1 by rfl]
    rw [openLoop_succ_ok hdec hval hnext hrec]
    rw [hlen, hmask36]
    decide
  · rw [hlen]
    decide

/-- C8 (amended).  Directory ranges: in every accepted archive the
entries are contiguous (each entry after the first starts exactly where
the previous one ends), the final entry's end equals the masked archive
length and is therefore bounded by the total file length.  The stated
strict-increase/non-overlap part fails because derived sizes may be
non-positive, see the counterexample. -/
theorem c8_ranges_amended (f : List Nat) (l : List DirEntry)
    (count es next0 o1 o2 : Nat)
    (hcount : unpackU32 (f.take 4) = some count)
    (hsane : is_sane_count count = true)
    (ho1 : unpackU32 ((f.drop 0x14).take 4) = some o1)
    (ho2 : unpackU32 ((f.drop 0x20).take 4) = some o2)
    (hdet : detectLayout count o1 o2 = some (es, next0))
    (hopen : try_open f = .ok l) :
    Contiguous l ∧
    (∀ i (hi : i + 1 < l.length),
      ((l.get ⟨i + 1, hi⟩).entry.offset : Int) =
        ((l.get ⟨i, Nat.lt_of_succ_lt hi⟩).entry.offset : Int) +
          (l.get ⟨i, Nat.lt_of_succ_lt hi⟩).entry.size) ∧
    l.getLast?.map (fun d => (d.entry.offset : Int) + d.entry.size) =
      some ((maskC f.length : Nat) : Int) ∧
    maskC f.length ≤ f.length := by
  rw [try_open_eq_loop hcount hsane ho1 ho2 hdet] at hopen
  have hc0 : 0 < count := by
    have hs := hsane
    unfold is_sane_count at hs
    exact (of_decide_eq_true hs).1
  obtain ⟨n, rfl⟩ : ∃ n, count = n + 1 := ⟨count - 1, by omega⟩
  obtain ⟨hhead, hcontig, hlast⟩ := openLoop_chain hopen
  exact ⟨hcontig, fun i hi => Contiguous.get_succ hcontig i hi, hlast, maskC_le _⟩

/-- The archive of the C8 witness: two contiguous entries. -/
def c8wFile : List Nat :=
  [2, 0, 0, 0] ++ ([65] ++ List.replicate 15 0 ++ [44, 0, 0, 0]) ++
    ([66] ++ List.replicate 15 0 ++ [52, 0, 0, 0]) ++ List.replicate 12 0

/-- The directory try_open returns for the C8 witness archive. -/
def c8wDir : List DirEntry :=
  [DirEntry.cgf ⟨[65], "image", 44, 8⟩ 0, DirEntry.cgf ⟨[66], "image", 52, 4⟩ 0]

/-- C8 witness: contiguity and the masked final end on a concrete
two-entry archive. -/
theorem c8_ranges_amended_witness :
    Contiguous c8wDir ∧
    (∀ i (hi : i + 1 < c8wDir.length),
      ((c8wDir.get ⟨i + 1, hi⟩).entry.offset : Int) =
        ((c8wDir.get ⟨i, Nat.lt_of_succ_lt hi⟩).entry.offset : Int) +
          (c8wDir.get ⟨i, Nat.lt_of_succ_lt hi⟩).entry.size) ∧
    c8wDir.getLast?.map (fun d => (d.entry.offset : Int) + d.entry.size) =
      some ((maskC c8wFile.length : Nat) : Int) ∧
    maskC c8wFile.length ≤ c8wFile.length :=
  c8_ranges_amended c8wFile c8wDir 2 0x14 44 44 0 (by decide) (by decide) (by decide)
    (by decide) (by decide) (by decide)

/-- The archive of the C8 counterexample: the second record's trailing
field points below the first entry's offset. -/
def c8cFile : List Nat :=
  [2, 0, 0, 0] ++ ([65] ++ List.replicate 15 0 ++ [44, 0, 0, 0]) ++
    ([66] ++ List.replicate 15 0 ++ [10, 0, 0, 0]) ++ List.replicate 16 0

/-- C8 (counterexample).  try_open accepts an archive whose directory
has a negative first size and strictly decreasing offsets: the ranges
are neither non-overlapping nor ordered by increasing offset. -/
theorem c8_ranges_cex :
    try_open c8cFile = .ok
      [DirEntry.cgf ⟨[65], "image", 44, -34⟩ 0, DirEntry.cgf ⟨[66], "image", 10, 50⟩ 0] ∧
    ¬ (DirEntry.cgf ⟨[65], "image", 44, -34⟩ 0).entry.offset <
        (DirEntry.cgf ⟨[66], "image", 10, 50⟩ 0).entry.offset := by
  decide

/-- C10.  Error taxonomy: the mismatch result (Python None) only arises
from the three explicit checks — an insane count, no matching layout
equation, or a record whose decoded stripped name fails validation —
while some non-archives raise exceptions instead: a 4-byte file with a
sane count raises struct.error at the probe read, and an index whose
name bytes are not valid UTF-8 raises UnicodeDecodeError. -/
theorem c10_error_taxonomy :
    (∀ f : List Nat, try_open f = .mismatch →
      (∃ count, unpackU32 (f.take 4) = some count ∧ is_sane_count count = false) ∨
      (∃ count o1 o2, unpackU32 (f.take 4) = some count ∧ is_sane_count count = true ∧
        unpackU32 ((f.drop 0x14).take 4) = some o1 ∧
        unpackU32 ((f.drop 0x20).take 4) = some o2 ∧
        detectLayout count o1 o2 = none) ∨
      (∃ count o1 o2 es next0 i nm, unpackU32 (f.take 4) = some count ∧
        is_sane_count count = true ∧
        unpackU32 ((f.drop 0x14).take 4) = some o1 ∧
        unpackU32 ((f.drop 0x20).take 4) = some o2 ∧
        detectLayout count o1 o2 = some (es, next0) ∧ i < count ∧
        Option.map rstripNull (utf8Decode (nameSliceAt f es i)) = some nm ∧
        is_valid_entry_name nm = false)) ∧
    try_open [1, 0, 0, 0] = .error ∧
    try_open ([1, 0, 0, 0] ++ ([255] ++ List.replicate 15 0 ++ [24, 0, 0, 0]) ++
      List.replicate 12 0) = .error := by
  refine ⟨?_, by decide, by decide⟩
  intro f h
  rcases try_open_mismatch_elim h with h1 | h2 | h3
  · exact Or.inl h1
  · exact Or.inr (Or.inl h2)
  · obtain ⟨count, o1, o2, es, next0, hcount, hsane, ho1, ho2, hdet, hloop⟩ := h3
    obtain ⟨k, hk, nm, hnm, hnv⟩ := openLoop_mismatch_elim hloop
    have h4 : 4 ≤ es := by
      rcases detectLayout_elim hdet with ⟨hh, _⟩ | ⟨hh, _⟩ <;> omega
    rw [show (0 : Nat) + k = k by omega] at hnm
    rw [idxName_eq f es count k h4 hk] at hnm
    exact Or.inr (Or.inr
      ⟨count, o1, o2, es, next0, k, nm, hcount, hsane, ho1, ho2, hdet, hk, hnm, hnv⟩)

/-- C10 witness: the mismatch taxonomy applied to the all-zero 4-byte
file (whose count 0 fails the sanity check). -/
theorem c10_error_taxonomy_witness :
    (∃ count, unpackU32 (List.take 4 [0, 0, 0, 0]) = some count ∧
      is_sane_count count = false) ∨
    (∃ count o1 o2, unpackU32 (List.take 4 [0, 0, 0, 0]) = some count ∧
      is_sane_count count = true ∧
      unpackU32 ((List.drop 0x14 [0, 0, 0, 0]).take 4) = some o1 ∧
      unpackU32 ((List.drop 0x20 [0, 0, 0, 0]).take 4) = some o2 ∧
      detectLayout count o1 o2 = none) ∨
    (∃ count o1 o2 es next0 i nm, unpackU32 (List.take 4 [0, 0, 0, 0]) = some count ∧
      is_sane_count count = true ∧
      unpackU32 ((List.drop 0x14 [0, 0, 0, 0]).take 4) = some o1 ∧
      unpackU32 ((List.drop 0x20 [0, 0, 0, 0]).take 4) = some o2 ∧
      detectLayout count o1 o2 = some (es, next0) ∧ i < count ∧
      Option.map rstripNull (utf8Decode (nameSliceAt [0, 0, 0, 0] es i)) = some nm ∧
      is_valid_entry_name nm = false) :=
  c10_error_taxonomy.1 [0, 0, 0, 0] (by decide)

end ExCGF
